import Mathlib

/-!
Verification of the generic indexed min-heap implemented in
`src/data-structures/heap/heap.c`.

The heap stores (priority, element) pairs in a packed dynamically grown
array and keeps a caller-supplied hash table mapping each element's byte
pattern to the slot currently holding it.  Priorities are compared only
through the three-way comparator `cmp_pty`; elements are opaque blocks
whose byte patterns carry decidable equality.

Modelling conventions:
* the live region of the pair array (`num_elts` slots starting at
  `pty_elts`) is a `List (P × E)`; `num_elts` is its length;
* the hash-table collaborator is represented by the partial map
  `E → Option Nat` it denotes; its `insert`/`search`/`remove` contract
  is taken from the specification because the concrete hash tables are
  not part of this directory;
* `size_t` arithmetic is `Nat` arithmetic: `add_sz_perror` and
  `mul_sz_perror` abort the process on overflow, so every value that a
  returning computation produces is the exact mathematical result; the
  guard arithmetic of `heapify_down`, which relies on unsigned
  wrap-free reasoning, is additionally modelled exactly at word size
  `w` by `sz_add`/`sz_sub`;
* the comparator contract (negative / zero / positive according to
  order of the two priorities) is realised by `cmp_pty` over a linear
  order on `P`.
-/

set_option linter.unusedSectionVars false

namespace DsAlgsC

variable {P E : Type} [LinearOrder P] [DecidableEq E] [Inhabited P] [Inhabited E]

/-- Three-way priority comparator, as specified for the `cmp_pty` parameter of
`heap_init`: negative when the first priority is less than the second,
positive when greater, zero when equal. -/
def cmp_pty (a b : P) : Int :=
  if a < b then -1 else if b < a then 1 else 0

theorem cmp_pty_pos {a b : P} : 0 < cmp_pty a b ↔ b < a := by
  unfold cmp_pty
  by_cases h1 : a < b
  · have h2 : ¬ b < a := not_lt.mpr h1.le
    simp [h1, h2]
  · by_cases h2 : b < a <;> simp [h1, h2]

theorem cmp_pty_nonpos {a b : P} : cmp_pty a b ≤ 0 ↔ a ≤ b := by
  unfold cmp_pty
  by_cases h1 : a < b
  · simp [h1, h1.le]
  · by_cases h2 : b < a
    · have h3 : ¬ a ≤ b := not_le.mpr h2
      simp [h1, h2, h3]
    · have h3 : a ≤ b := not_lt.mp h2
      simp [h1, h2, h3]

/-- Pair read from slot `i` of the pair array (the `pty_ptr`/`elt_ptr`
address computations of the source); out-of-range slots yield the default
pair and are never read in the verified executions. -/
def pA (l : List (P × E)) (i : Nat) : P × E :=
  l.getD i default

theorem pA_eq_getElem {l : List (P × E)} {i : Nat} (h : i < l.length) :
    pA l i = l[i] :=
  List.getD_eq_getElem l default h

theorem pA_mem {l : List (P × E)} {i : Nat} (h : i < l.length) : pA l i ∈ l := by
  rw [pA_eq_getElem h]
  exact List.getElem_mem h

theorem pA_set_self {l : List (P × E)} {i : Nat} (h : i < l.length) (x : P × E) :
    pA (l.set i x) i = x := by
  unfold pA
  rw [List.getD_eq_getElem?_getD, List.getElem?_set_self h]
  rfl

theorem pA_set_ne {l : List (P × E)} {i j : Nat} (h : i ≠ j) (x : P × E) :
    pA (l.set i x) j = pA l j := by
  unfold pA
  rw [List.getD_eq_getElem?_getD, List.getD_eq_getElem?_getD, List.getElem?_set_ne h]

theorem set_pA_self {l : List (P × E)} {i : Nat} (h : i < l.length) :
    l.set i (pA l i) = l := by
  apply List.ext_getElem?
  intro n
  rw [List.getElem?_set]
  by_cases hin : i = n
  · subst hin
    rw [if_pos rfl, if_pos h, pA_eq_getElem h, List.getElem?_eq_getElem h]
  · rw [if_neg hin]

theorem pA_append_left {l l' : List (P × E)} {i : Nat} (h : i < l.length) :
    pA (l ++ l') i = pA l i :=
  List.getD_append l l' default i h

theorem pA_append_last {l : List (P × E)} (x : P × E) :
    pA (l ++ [x]) l.length = x := by
  unfold pA
  rw [List.getD_eq_getElem?_getD, List.getElem?_concat_length]
  rfl

/-- Uniqueness of the element byte patterns over the live slots (the push
precondition stated in the source's header comment). -/
def eltsNodup (l : List (P × E)) : Prop :=
  (l.map Prod.snd).Nodup

theorem eltsNodup_inj {l : List (P × E)} (hn : eltsNodup l) {i j : Nat}
    (hi : i < l.length) (hj : j < l.length)
    (he : (pA l i).2 = (pA l j).2) : i = j := by
  have hinj := List.nodup_iff_injective_get.mp hn
  have hi' : i < (l.map Prod.snd).length := by simpa using hi
  have hj' : j < (l.map Prod.snd).length := by simpa using hj
  have h1 : (l.map Prod.snd).get ⟨i, hi'⟩ = (l.map Prod.snd).get ⟨j, hj'⟩ := by
    simp only [List.get_eq_getElem, List.getElem_map]
    rw [← pA_eq_getElem hi, ← pA_eq_getElem hj]
    exact he
  have h2 := hinj h1
  exact congrArg Fin.val h2

/-- The slot holding the unique pair whose element equals `e`, if any: the
value that a correct SlotIndex must associate with key `e`. -/
def slotOf (e : E) : List (P × E) → Option Nat
  | [] => none
  | x :: t => if x.2 = e then some 0 else (slotOf e t).map (· + 1)

theorem slotOf_some {e : E} : ∀ {l : List (P × E)} {k : Nat},
    slotOf e l = some k → k < l.length ∧ (pA l k).2 = e := by
  intro l
  induction l with
  | nil => intro k hk; simp [slotOf] at hk
  | cons x t ih =>
    intro k hk
    unfold slotOf at hk
    by_cases hx : x.2 = e
    · rw [if_pos hx] at hk
      have hk0 : k = 0 := by simpa using hk.symm
      subst hk0
      exact ⟨Nat.succ_pos _, hx⟩
    · rw [if_neg hx] at hk
      rcases Option.map_eq_some'.mp hk with ⟨m, hm, hmk⟩
      rcases ih hm with ⟨h1, h2⟩
      subst hmk
      refine ⟨by simpa using h1, ?_⟩
      simpa [pA, List.getD_cons_succ] using h2

theorem slotOf_of_nodup {e : E} : ∀ {l : List (P × E)}, eltsNodup l →
    ∀ {k : Nat}, k < l.length → (pA l k).2 = e → slotOf e l = some k := by
  intro l
  induction l with
  | nil => intro _ k hk; simp at hk
  | cons x t ih =>
    intro hn k hk he
    have hn' : x.2 ∉ t.map Prod.snd ∧ eltsNodup t := by
      have := hn
      unfold eltsNodup at this
      rw [List.map_cons, List.nodup_cons] at this
      exact this
    unfold slotOf
    by_cases hx : x.2 = e
    · rw [if_pos hx]
      rcases Nat.eq_zero_or_pos k with hk0 | hkpos
      · simp [hk0]
      · exfalso
        rcases Nat.exists_eq_add_of_lt hkpos with ⟨m, hm⟩
        have hkm : k = m + 1 := by omega
        subst hkm
        have hmt : m < t.length := by simpa using hk
        have hpe : (pA t m).2 = e := by
          simpa [pA, List.getD_cons_succ] using he
        apply hn'.1
        rw [hx, ← hpe, pA_eq_getElem hmt]
        exact List.mem_map_of_mem Prod.snd (List.getElem_mem hmt)
    · rw [if_neg hx]
      rcases Nat.eq_zero_or_pos k with hk0 | hkpos
      · exfalso
        apply hx
        subst hk0
        simpa [pA] using he
      · rcases Nat.exists_eq_add_of_lt hkpos with ⟨m, hm⟩
        have hkm : k = m + 1 := by omega
        subst hkm
        have hmt : m < t.length := by simpa using hk
        have hpe : (pA t m).2 = e := by
          simpa [pA, List.getD_cons_succ] using he
        rw [ih hn'.2 hmt hpe]
        rfl

theorem slotOf_none_iff {e : E} : ∀ {l : List (P × E)},
    slotOf e l = none ↔ e ∉ l.map Prod.snd := by
  intro l
  induction l with
  | nil => simp [slotOf]
  | cons x t ih =>
    unfold slotOf
    by_cases hx : x.2 = e
    · rw [if_pos hx]
      simp [hx]
    · rw [if_neg hx]
      simp only [Option.map_eq_none', List.map_cons, List.mem_cons]
      rw [ih]
      constructor
      · intro h hmem
        rcases hmem with hmem | hmem
        · exact hx hmem.symm
        · exact h hmem
      · intro h hmem
        exact h (Or.inr hmem)

/-- Offset/stride rule of `heap_init` (lines 90–103): the element is placed
at `elt_size` when `pty_size ≤ elt_size` and otherwise at `pty_size` rounded
up to a multiple of `elt_size`; the pair size is `elt_offset + elt_size`
rounded up to a multiple of `pty_size`.  The boolean-times-value products of
the source become conditionals; `add_sz_perror` aborts on overflow, so a
returning computation produces the exact sum. -/
def heap_init_layout (pty_size elt_size : Nat) : Nat × Nat :=
  let elt_offset :=
    if pty_size ≤ elt_size then elt_size
    else pty_size + (if 0 < pty_size % elt_size then elt_size - pty_size % elt_size else 0)
  let pty_rem := (elt_offset + elt_size) % pty_size
  (elt_offset, elt_offset + elt_size + (if 0 < pty_rem then pty_size - pty_rem else 0))

/-- Offset/stride rule of `heap_align` (lines 129–148), identical to
`heap_init` with the explicit alignments in place of the sizes. -/
def heap_align_layout (pty_size elt_size pty_alignment elt_alignment : Nat) : Nat × Nat :=
  let elt_offset :=
    if pty_size ≤ elt_alignment then elt_alignment
    else pty_size +
      (if 0 < pty_size % elt_alignment then elt_alignment - pty_size % elt_alignment else 0)
  let pty_rem := (elt_offset + elt_size) % pty_alignment
  (elt_offset, elt_offset + elt_size + (if 0 < pty_rem then pty_alignment - pty_rem else 0))

/-- The heap state `heap_t`.  `pty_elts` is the live region of the packed
pair array (slots `0 … num_elts - 1`); its length is `num_elts`.  `ht` is
the map denoted by the hash-table collaborator, modelled from the spec
(SlotIndex contract, §4.2) because the hash-table implementations are not
part of this directory.  The scratch buffer `buf` of the source is a local
value of the sift procedures here and needs no field. -/
structure heap_t (P E : Type) where
  pty_size : Nat
  elt_size : Nat
  elt_offset : Nat
  pair_size : Nat
  count : Nat
  pty_elts : List (P × E)
  ht : E → Option Nat

/-- Number of live elements: the `num_elts` field of the source. -/
def num_elts (h : heap_t P E) : Nat :=
  h.pty_elts.length

/-- Modelled from the spec: SlotIndex `insert` (§4.2) overwrites any existing
mapping for the key. -/
def ht_insert (m : E → Option Nat) (k : E) (v : Nat) : E → Option Nat :=
  fun e => if e = k then some v else m e

/-- Modelled from the spec: SlotIndex `remove` (§4.2) deletes the mapping for
the key when present. -/
def ht_remove (m : E → Option Nat) (k : E) : E → Option Nat :=
  fun e => if e = k then none else m e

/-- State part of `heap_init`: empty pair array, capacity `min_num`, empty
hash table, layout fields from `heap_init_layout`. -/
def heap_init (pty_size elt_size min_num : Nat) : heap_t P E :=
  { pty_size := pty_size
    elt_size := elt_size
    elt_offset := (heap_init_layout pty_size elt_size).1
    pair_size := (heap_init_layout pty_size elt_size).2
    count := min_num
    pty_elts := []
    ht := fun _ => none }

/-- Embedding of `swap` (lines 250–258): exchanges the pairs at slots `i` and `j` and
re-registers both moved elements (read back from their new slots) in the
hash table; returns immediately when `i == j`. -/
def swap (h : heap_t P E) (i j : Nat) : heap_t P E :=
  if i = j then h
  else
    let l := (h.pty_elts.set i (pA h.pty_elts j)).set j (pA h.pty_elts i)
    { h with pty_elts := l
             ht := ht_insert (ht_insert h.ht (pA l i).2 i) (pA l j).2 j }

/-- Embedding of `half_swap` (lines 264–268): copies the pair at slot `s` onto slot `t`
and re-registers the element now at `t`; returns immediately when `s == t`. -/
def half_swap (h : heap_t P E) (t s : Nat) : heap_t P E :=
  if s = t then h
  else
    let l := h.pty_elts.set t (pA h.pty_elts s)
    { h with pty_elts := l
             ht := ht_insert h.ht (pA l t).2 t }

/-- Loop of `heapify_up` (lines 277–285): while the current slot is not the
root and the parent's priority exceeds the buffered priority, copy the parent
pair down and ascend.  The loop variable strictly decreases, so fuel `i + 1`
runs the loop to completion from start slot `i`. -/
def up_loop : Nat → heap_t P E → (P × E) → Nat → heap_t P E × Nat
  | 0, h, _, ix => (h, ix)
  | fuel + 1, h, buf, ix =>
    if 0 < ix then
      let ju := (ix - 1) / 2
      if 0 < cmp_pty (pA h.pty_elts ju).1 buf.1 then
        up_loop fuel (half_swap h ix ju) buf ju
      else (h, ix)
    else (h, ix)

/-- Embedding of `heapify_up` (lines 273–288): buffer the pair at `i`, run the ascent
loop, write the buffered pair into the resting slot and re-register its
element there. -/
def heapify_up (h : heap_t P E) (i : Nat) : heap_t P E :=
  let buf := pA h.pty_elts i
  let s := up_loop (i + 1) h buf i
  let l := s.1.pty_elts.set s.2 buf
  { s.1 with pty_elts := l, ht := ht_insert s.1.ht (pA l s.2).2 s.2 }

/-- Guard of the two-children loop of `heapify_down` (line 299), written as
in the source: `ix + 2 <= num_elts - 1 - ix`. -/
abbrev down_guard (n ix : Nat) : Prop :=
  ix + 2 ≤ n - 1 - ix

/-- One-remaining-child test of `heapify_down` (line 315), written as in the
source: `ix + 1 == num_elts - 1 - ix`. -/
abbrev down_one_child (n ix : Nat) : Prop :=
  ix + 1 = n - 1 - ix

/-- Post-loop single-child handling of `heapify_down` (lines 315–321). -/
def down_fin (h : heap_t P E) (buf : P × E) (ix : Nat) : heap_t P E × Nat :=
  if down_one_child (num_elts h) ix then
    let jl := 2 * ix + 1
    if 0 < cmp_pty buf.1 (pA h.pty_elts jl).1 then (half_swap h ix jl, jl)
    else (h, ix)
  else (h, ix)

/-- Loop of `heapify_down` (lines 299–314) followed by the single-child
handling: while both children exist, move the smaller child up when it beats
the buffered priority and descend.  The distance to the end of the array
strictly decreases, so fuel `num_elts` runs the loop to completion. -/
def down_loop : Nat → heap_t P E → (P × E) → Nat → heap_t P E × Nat
  | 0, h, _, ix => (h, ix)
  | fuel + 1, h, buf, ix =>
    if down_guard (num_elts h) ix then
      let jl := 2 * ix + 1
      let jr := 2 * ix + 2
      if 0 < cmp_pty buf.1 (pA h.pty_elts jl).1 ∧
          cmp_pty (pA h.pty_elts jl).1 (pA h.pty_elts jr).1 ≤ 0 then
        down_loop fuel (half_swap h ix jl) buf jl
      else if 0 < cmp_pty buf.1 (pA h.pty_elts jr).1 then
        down_loop fuel (half_swap h ix jr) buf jr
      else down_fin h buf ix
    else down_fin h buf ix

/-- Embedding of `heapify_down` (lines 294–324): buffer the pair at `i`, run the descent
loop and the single-child handling, write the buffered pair into the resting
slot and re-register its element there. -/
def heapify_down (h : heap_t P E) (i : Nat) : heap_t P E :=
  let buf := pA h.pty_elts i
  let s := down_loop (num_elts h) h buf i
  let l := s.1.pty_elts.set s.2 buf
  { s.1 with pty_elts := l, ht := ht_insert s.1.ht (pA l s.2).2 s.2 }

/-- Embedding of `heap_push` (lines 163–176): grow the capacity when full, append the
pair at slot `num_elts`, register the element, and sift up from there. -/
def heap_push (h : heap_t P E) (pty : P) (elt : E) : heap_t P E :=
  let ix := num_elts h
  let h0 := if h.count = ix then { h with count := 2 * h.count } else h
  let h1 := { h0 with pty_elts := h0.pty_elts ++ [(pty, elt)]
                      ht := ht_insert h0.ht elt ix }
  heapify_up h1 ix

/-- Embedding of `heap_search` (lines 186–193): look the element up in the hash table and
return (a reference to) the priority at the found slot, or nothing; the heap
itself is not written. -/
def heap_search (h : heap_t P E) (elt : E) : heap_t P E × Option P :=
  match h.ht elt with
  | some ix => (h, some (pA h.pty_elts ix).1)
  | none => (h, none)

/-- Priority overwrite step of `heap_update` (line 204): only `pty_size`
bytes at the slot are written, the element part is untouched. -/
def update_write (h : heap_t P E) (pty : P) (ix : Nat) : heap_t P E :=
  { h with pty_elts := h.pty_elts.set ix (pty, (pA h.pty_elts ix).2) }

/-- Embedding of `heap_update` (lines 202–207): the slot is obtained by dereferencing the
hash-table search result without a NULL check, so an absent element gives no
defined resulting state (`none`); on a present element the priority is
overwritten in place and both sifts run from that slot. -/
def heap_update (h : heap_t P E) (pty : P) (elt : E) : Option (heap_t P E) :=
  match h.ht elt with
  | none => none
  | some ix => some (heapify_down (heapify_up (update_write h pty ix) ix) ix)

/-- Embedding of `heap_pop` (lines 215–224): nothing happens on an empty heap; otherwise
the root pair is copied into the output buffers, the root and last slots are
swapped, the popped element is removed from the hash table, the logical size
shrinks by one, and a sift down from the root runs when elements remain. -/
def heap_pop (h : heap_t P E) (pty : P) (elt : E) : heap_t P E × P × E :=
  if num_elts h = 0 then (h, pty, elt)
  else
    let out := pA h.pty_elts 0
    let h1 := swap h 0 (num_elts h - 1)
    let h2 := { h1 with ht := ht_remove h1.ht out.2
                        pty_elts := h1.pty_elts.take (num_elts h1 - 1) }
    if 0 < num_elts h2 then (heapify_down h2 0, out.1, out.2)
    else (h2, out.1, out.2)

/-- Exact unsigned addition at word size `w` (the `size_t` model used for
the guard arithmetic of `heapify_down`). -/
def sz_add (w a b : Nat) : Nat :=
  (a + b) % 2 ^ w

/-- Exact unsigned subtraction at word size `w`, for a subtrahend below
`2 ^ w`. -/
def sz_sub (w a b : Nat) : Nat :=
  (a + (2 ^ w - b)) % 2 ^ w

/-- Array effect of `swap` on the pair list alone, used by the
specification-level sift recursions. -/
def swapL (l : List (P × E)) (i j : Nat) : List (P × E) :=
  (l.set i (pA l j)).set j (pA l i)

/-- Specification-level form of the `heapify_up` loop: the same traversal
expressed with full exchanges on the pair list, returning the final list and
the resting slot. -/
def up_loop_l : Nat → List (P × E) → Nat → List (P × E) × Nat
  | 0, l, ix => (l, ix)
  | fuel + 1, l, ix =>
    if 0 < ix ∧ 0 < cmp_pty (pA l ((ix - 1) / 2)).1 (pA l ix).1 then
      up_loop_l fuel (swapL l ix ((ix - 1) / 2)) ((ix - 1) / 2)
    else (l, ix)

/-- Specification-level form of the single-child handling of
`heapify_down`. -/
def down_fin_l (l : List (P × E)) (ix : Nat) : List (P × E) × Nat :=
  if down_one_child l.length ix ∧ 0 < cmp_pty (pA l ix).1 (pA l (2 * ix + 1)).1 then
    (swapL l ix (2 * ix + 1), 2 * ix + 1)
  else (l, ix)

/-- Specification-level form of the `heapify_down` loop. -/
def down_loop_l : Nat → List (P × E) → Nat → List (P × E) × Nat
  | 0, l, ix => (l, ix)
  | fuel + 1, l, ix =>
    if down_guard l.length ix then
      let jl := 2 * ix + 1
      let jr := 2 * ix + 2
      if 0 < cmp_pty (pA l ix).1 (pA l jl).1 ∧
          cmp_pty (pA l jl).1 (pA l jr).1 ≤ 0 then
        down_loop_l fuel (swapL l ix jl) jl
      else if 0 < cmp_pty (pA l ix).1 (pA l jr).1 then
        down_loop_l fuel (swapL l ix jr) jr
      else down_fin_l l ix
    else down_fin_l l ix

/-- Min-heap order over the live slots: every non-root slot's priority is at
least its parent's. -/
def heap_ord (l : List (P × E)) : Prop :=
  ∀ j, 0 < j → j < l.length → (pA l ((j - 1) / 2)).1 ≤ (pA l j).1

/-- Heap order on all edges avoiding slot `i`, together with the
grandparent bridge over `i`: the invariant of the ascent loop. -/
def up_inv (l : List (P × E)) (i : Nat) : Prop :=
  (∀ j, 0 < j → j < l.length → j ≠ i → (j - 1) / 2 ≠ i →
    (pA l ((j - 1) / 2)).1 ≤ (pA l j).1) ∧
  (∀ c, 0 < c → c < l.length → (c - 1) / 2 = i → 0 < i →
    (pA l ((i - 1) / 2)).1 ≤ (pA l c).1)

/-- Heap order on all edges not leaving slot `i`, together with the
grandparent bridge over `i`: the invariant of the descent loop. -/
def ad_inv (l : List (P × E)) (i : Nat) : Prop :=
  (∀ j, 0 < j → j < l.length → (j - 1) / 2 ≠ i →
    (pA l ((j - 1) / 2)).1 ≤ (pA l j).1) ∧
  (∀ c, 0 < c → c < l.length → (c - 1) / 2 = i → 0 < i →
    (pA l ((i - 1) / 2)).1 ≤ (pA l c).1)

/-- The combined state invariant: heap order, uniqueness of the element byte
patterns, and exact agreement of the hash table with the slot contents. -/
def heap_inv (h : heap_t P E) : Prop :=
  heap_ord h.pty_elts ∧ eltsNodup h.pty_elts ∧ ∀ e, h.ht e = slotOf e h.pty_elts

/-- Heaps reachable from an initialized empty heap by the public operations:
pushes of elements whose byte pattern is not currently present, updates on
present elements (the hash search must succeed), and pops. -/
inductive reachable : heap_t P E → Prop
  | init (ps es mn : Nat) : reachable (heap_init ps es mn)
  | push {h : heap_t P E} (p : P) (e : E) : reachable h → h.ht e = none →
      reachable (heap_push h p e)
  | update {h h' : heap_t P E} (p : P) (e : E) : reachable h →
      heap_update h p e = some h' → reachable h'
  | pop {h : heap_t P E} (p0 : P) (e0 : E) : reachable h →
      reachable (heap_pop h p0 e0).1

/-- Repeated `heap_pop` into fresh output buffers, collecting the written
(priority, element) outputs until the heap is empty or `k` pops were done. -/
def popAll : Nat → heap_t P E → List (P × E)
  | 0, _ => []
  | k + 1, h =>
    if num_elts h = 0 then []
    else
      ((heap_pop h default default).2.1, (heap_pop h default default).2.2) ::
        popAll k (heap_pop h default default).1

/-- A sequence of `heap_push` calls applied to a starting heap. -/
def push_list (xs : List (P × E)) (h : heap_t P E) : heap_t P E :=
  xs.foldl (fun acc x => heap_push acc x.1 x.2) h

/-- One-element example heap: a single push on a fresh heap. -/
def heap_a : heap_t Nat Nat :=
  heap_push (heap_init 8 8 4) 5 0

/-- Two-element example heap. -/
def heap_b : heap_t Nat Nat :=
  heap_push heap_a 7 1

/-- The concrete scenario: priorities 5, 3, 8, 1 pushed for the distinct
elements 0, 1, 2, 3 (code points for A, B, C, D). -/
def heap_demo : heap_t Nat Nat :=
  push_list [(5, 0), (3, 1), (8, 2), (1, 3)] (heap_init 8 8 4)

theorem length_swapL (l : List (P × E)) (i j : Nat) : (swapL l i j).length = l.length := by
  simp [swapL]

theorem swapL_self {l : List (P × E)} {i : Nat} (h : i < l.length) : swapL l i i = l := by
  unfold swapL
  rw [List.set_set, set_pA_self h]

theorem swapL_comm {l : List (P × E)} {i j : Nat} (h : i ≠ j) :
    swapL l i j = swapL l j i := by
  unfold swapL
  exact List.set_comm _ _ _ h

theorem pA_swapL_left {l : List (P × E)} {i j : Nat} (hne : i ≠ j) (hi : i < l.length) :
    pA (swapL l i j) i = pA l j := by
  unfold swapL
  rw [pA_set_ne (Ne.symm hne), pA_set_self hi]

theorem pA_swapL_right {l : List (P × E)} {i j : Nat} (hj : j < l.length) :
    pA (swapL l i j) j = pA l i := by
  unfold swapL
  have h : j < (l.set i (pA l j)).length := by simpa using hj
  rw [pA_set_self h]

theorem pA_swapL_other {l : List (P × E)} {i j k : Nat} (h1 : k ≠ i) (h2 : k ≠ j) :
    pA (swapL l i j) k = pA l k := by
  unfold swapL
  rw [pA_set_ne (Ne.symm h2), pA_set_ne (Ne.symm h1)]

theorem perm_swap_middle {A M C : List (P × E)} {x y : P × E} :
    List.Perm (A ++ y :: (M ++ x :: C)) (A ++ x :: (M ++ y :: C)) := by
  apply List.Perm.append_left
  refine List.Perm.trans (List.Perm.cons y List.perm_middle) ?_
  refine List.Perm.trans (List.Perm.swap x y (M ++ C)) ?_
  exact List.Perm.cons x List.perm_middle.symm

theorem set_eq_decomp {l : List (P × E)} {i : Nat} (h : i < l.length) (a : P × E) :
    l.set i a = l.take i ++ a :: l.drop (i + 1) := by
  rw [List.set_eq_take_append_cons_drop, if_pos h]

theorem self_eq_decomp {l : List (P × E)} {i : Nat} (h : i < l.length) :
    l = l.take i ++ pA l i :: l.drop (i + 1) := by
  conv_lhs => rw [← List.take_append_drop i l]
  rw [List.drop_eq_getElem_cons h, pA_eq_getElem h]

theorem set_cons_pred {x a : P × E} {t : List (P × E)} {n : Nat} (h : 0 < n) :
    (a :: t).set n x = a :: t.set (n - 1) x := by
  cases n with
  | zero => exact absurd h (lt_irrefl 0)
  | succ m => rfl

theorem swapL_perm_lt {l : List (P × E)} {i j : Nat} (hij : i < j) (hj : j < l.length) :
    List.Perm (swapL l i j) l := by
  have hi : i < l.length := lt_trans hij hj
  have hDlen : (l.drop (i + 1)).length = l.length - (i + 1) := List.length_drop _ _
  have htakel : (l.take i).length = i := by
    rw [List.length_take]
    omega
  have eD : l.drop (i + 1) =
      (l.drop (i + 1)).take (j - i - 1) ++ pA l j :: l.drop (j + 1) := by
    conv_lhs => rw [← List.take_append_drop (j - i - 1) (l.drop (i + 1))]
    congr 1
    rw [List.drop_drop]
    have hji : i + 1 + (j - i - 1) = j := by omega
    rw [hji, List.drop_eq_getElem_cons hj, pA_eq_getElem hj]
  have eL : l = l.take i ++ pA l i ::
      ((l.drop (i + 1)).take (j - i - 1) ++ pA l j :: l.drop (j + 1)) := by
    conv_lhs => rw [self_eq_decomp hi, eD]
  have hDidx : j - i - 1 < (l.drop (i + 1)).length := by omega
  have eDrop : (l.drop (i + 1)).drop (j - i - 1 + 1) = l.drop (j + 1) := by
    rw [List.drop_drop]
    congr 1
    omega
  have eSet : (l.drop (i + 1)).set (j - i - 1) (pA l i) =
      (l.drop (i + 1)).take (j - i - 1) ++ pA l i :: l.drop (j + 1) := by
    rw [set_eq_decomp hDidx, eDrop]
  have eS : swapL l i j = l.take i ++ pA l j ::
      ((l.drop (i + 1)).take (j - i - 1) ++ pA l i :: l.drop (j + 1)) := by
    unfold swapL
    rw [set_eq_decomp hi (pA l j), List.set_append]
    have hnotlt : ¬ j < (l.take i).length := by omega
    rw [if_neg hnotlt, htakel, set_cons_pred (show 0 < j - i by omega), eSet]
  rw [eS]
  conv_rhs => rw [eL]
  exact perm_swap_middle

theorem swapL_perm {l : List (P × E)} {i j : Nat} (hi : i < l.length) (hj : j < l.length) :
    List.Perm (swapL l i j) l := by
  rcases Nat.lt_trichotomy i j with h | h | h
  · exact swapL_perm_lt h hj
  · subst h
    rw [swapL_self hi]
  · rw [swapL_comm (by omega)]
    exact swapL_perm_lt h hi

theorem swapL_nodup {l : List (P × E)} {i j : Nat} (hi : i < l.length) (hj : j < l.length)
    (hn : eltsNodup l) : eltsNodup (swapL l i j) := by
  unfold eltsNodup
  exact (((swapL_perm hi hj).map Prod.snd).nodup_iff).mpr hn

theorem mem_swapL {l : List (P × E)} {i j : Nat} (hi : i < l.length) (hj : j < l.length)
    {x : P × E} : x ∈ swapL l i j ↔ x ∈ l :=
  (swapL_perm hi hj).mem_iff

theorem slotOf_map_snd_congr : ∀ {l l' : List (P × E)},
    l.map Prod.snd = l'.map Prod.snd → ∀ e : E, slotOf e l = slotOf e l' := by
  intro l
  induction l with
  | nil =>
    intro l' h e
    cases l' with
    | nil => rfl
    | cons y t' => simp at h
  | cons x t ih =>
    intro l' h e
    cases l' with
    | nil => simp at h
    | cons y t' =>
      simp only [List.map_cons, List.cons.injEq] at h
      unfold slotOf
      rw [h.1, ih h.2 e]

theorem slotOf_swapL_other {l : List (P × E)} (hn : eltsNodup l) {i j : Nat}
    (hi : i < l.length) (hj : j < l.length) {e : E}
    (h1 : e ≠ (pA l i).2) (h2 : e ≠ (pA l j).2) :
    slotOf e (swapL l i j) = slotOf e l := by
  cases hsl : slotOf e l with
  | none =>
    rw [slotOf_none_iff]
    have hmem := slotOf_none_iff.mp hsl
    intro hc
    apply hmem
    have := (((swapL_perm hi hj).map Prod.snd).mem_iff (a := e)).mp hc
    exact this
  | some s =>
    rcases slotOf_some hsl with ⟨hs, hse⟩
    have hsi : s ≠ i := fun hc => h1 (by rw [← hc]; exact hse.symm)
    have hsj : s ≠ j := fun hc => h2 (by rw [← hc]; exact hse.symm)
    have hs' : s < (swapL l i j).length := by rwa [length_swapL]
    apply slotOf_of_nodup (swapL_nodup hi hj hn) hs'
    rw [pA_swapL_other hsi hsj]
    exact hse

theorem pA_take {l : List (P × E)} {k i : Nat} (h : i < k) :
    pA (l.take k) i = pA l i := by
  unfold pA
  rw [List.getD_eq_getElem?_getD, List.getD_eq_getElem?_getD, List.getElem?_take, if_pos h]

theorem slotOf_take {e : E} : ∀ (l : List (P × E)) (k : Nat),
    slotOf e (l.take k) =
      (slotOf e l).bind (fun s => if s < k then some s else none) := by
  intro l
  induction l with
  | nil => intro k; simp [slotOf]
  | cons x t ih =>
    intro k
    cases k with
    | zero =>
      simp only [List.take_zero]
      cases hs : slotOf e (x :: t) <;> simp [slotOf, hs]
    | succ m =>
      simp only [List.take_succ_cons]
      unfold slotOf
      by_cases hx : x.2 = e
      · simp [hx]
      · rw [if_neg hx, if_neg hx, ih]
        cases hs : slotOf e t with
        | none => simp
        | some s =>
          by_cases hsm : s < m
          · simp [hsm, Nat.succ_lt_succ hsm]
          · have hsm' : ¬ s + 1 < m + 1 := by omega
            simp [hsm, hsm']

theorem slotOf_append_ne {x : P × E} {e : E} (h : e ≠ x.2) :
    ∀ (l : List (P × E)), slotOf e (l ++ [x]) = slotOf e l := by
  intro l
  induction l with
  | nil =>
    simp only [List.nil_append]
    unfold slotOf
    rw [if_neg (fun hc => h hc.symm)]
    rfl
  | cons y t ih =>
    simp only [List.cons_append]
    unfold slotOf
    rw [ih]

theorem parent_lt {i : Nat} (h : 0 < i) : (i - 1) / 2 < i := by omega

theorem child_cases {c i : Nat} (hc : 0 < c) : (c - 1) / 2 = i ↔ c = 2 * i + 1 ∨ c = 2 * i + 2 := by
  omega

theorem heap_ord_ad_inv {l : List (P × E)} (ho : heap_ord l) {i : Nat} (hi : i < l.length) :
    ad_inv l i := by
  constructor
  · intro j hj hjl _
    exact ho j hj hjl
  · intro c hc hcl hcp hip
    have h1 : (pA l ((i - 1) / 2)).1 ≤ (pA l i).1 := ho i hip hi
    have h2 := ho c hc hcl
    rw [hcp] at h2
    exact le_trans h1 h2

theorem ad_inv_ord {l : List (P × E)} {i : Nat} (hinv : ad_inv l i)
    (hch : ∀ c, 0 < c → c < l.length → (c - 1) / 2 = i → (pA l i).1 ≤ (pA l c).1) :
    heap_ord l := by
  intro j hj hjl
  by_cases hp : (j - 1) / 2 = i
  · rw [hp]
    exact hch j hj hjl hp
  · exact hinv.1 j hj hjl hp

theorem up_inv_step {l : List (P × E)} {i : Nat} (hi : i < l.length) (hip : 0 < i)
    (hinv : up_inv l i)
    (hgt : (pA l i).1 < (pA l ((i - 1) / 2)).1) :
    up_inv (swapL l i ((i - 1) / 2)) ((i - 1) / 2) := by
  set p := (i - 1) / 2 with hpdef
  have hp : p < i := parent_lt hip
  have hpl : p < l.length := lt_trans hp hi
  have hip' : i ≠ p := by omega
  have eqi : pA (swapL l i p) i = pA l p := pA_swapL_left hip' hi
  have eqp : pA (swapL l i p) p = pA l i := pA_swapL_right hpl
  have eqo : ∀ k, k ≠ i → k ≠ p → pA (swapL l i p) k = pA l k := by
    intro k h1 h2
    exact pA_swapL_other h1 h2
  have hlen : (swapL l i p).length = l.length := length_swapL l i p
  constructor
  · intro j hj hjl hjp hpjp
    rw [hlen] at hjl
    by_cases hji : j = i
    · exfalso
      apply hpjp
      rw [hji]
    · have hpj_ne_i_or : (j - 1) / 2 = i ∨ (j - 1) / 2 ≠ i := em _
      by_cases hpj : (j - 1) / 2 = i
      · rw [hpj, eqi, eqo j hji hjp]
        exact hinv.2 j hj hjl hpj hip
      · have hpp : (j - 1) / 2 ≠ p := hpjp
        rw [eqo _ hpj hpp, eqo j hji hjp]
        exact hinv.1 j hj hjl hji hpj
  · intro c hc hcl hcp hpp
    rw [hlen] at hcl
    have hgp : (p - 1) / 2 < p := parent_lt hpp
    have hgpi : (p - 1) / 2 ≠ i := by omega
    have hgpp : (p - 1) / 2 ≠ p := by omega
    have hcgtp : p < c := by
      have := child_cases hc |>.mp hcp
      omega
    have hcip : c ≠ p := by omega
    have hgple : (pA l ((p - 1) / 2)).1 ≤ (pA l p).1 := by
      have := hinv.1 p hpp hpl (by omega) hgpi
      exact this
    rw [eqo _ hgpi hgpp]
    by_cases hci : c = i
    · rw [hci, eqi]
      exact hgple
    · rw [eqo c hci hcip]
      have h2 := hinv.1 c hc hcl hci (by rw [hcp]; omega)
      rw [hcp] at h2
      exact le_trans hgple h2

theorem up_inv_stop {l : List (P × E)} {i : Nat} (hinv : up_inv l i)
    (hstop : i = 0 ∨ (pA l ((i - 1) / 2)).1 ≤ (pA l i).1) : ad_inv l i := by
  constructor
  · intro j hj hjl hpj
    by_cases hji : j = i
    · subst hji
      rcases hstop with h0 | hle
      · omega
      · exact hle
    · exact hinv.1 j hj hjl hji hpj
  · exact hinv.2

theorem up_loop_l_spec :
    ∀ (fuel : Nat) (l : List (P × E)) (i : Nat), i < l.length → i < fuel → up_inv l i →
    (up_loop_l fuel l i).2 ≤ i ∧
    (up_loop_l fuel l i).1.length = l.length ∧
    ((up_loop_l fuel l i).2 = i → (up_loop_l fuel l i).1 = l ∧ ad_inv l i) ∧
    ((up_loop_l fuel l i).2 ≠ i → heap_ord (up_loop_l fuel l i).1) := by
  intro fuel
  induction fuel with
  | zero => intro l i hi hif hinv; omega
  | succ fuel ih =>
    intro l i hi hif hinv
    by_cases hcond : 0 < i ∧ 0 < cmp_pty (pA l ((i - 1) / 2)).1 (pA l i).1
    · have heq : up_loop_l (fuel + 1) l i = up_loop_l fuel (swapL l i ((i - 1) / 2)) ((i - 1) / 2) := by
        simp only [up_loop_l, if_pos hcond]
      rw [heq]
      set p := (i - 1) / 2 with hpdef
      have hgt : (pA l i).1 < (pA l p).1 := cmp_pty_pos.mp hcond.2
      have hp : p < i := parent_lt hcond.1
      have hpl : p < l.length := lt_trans hp hi
      have hpm : p < (swapL l i p).length := by rw [length_swapL]; exact hpl
      have hpf : p < fuel := by omega
      have hinv' : up_inv (swapL l i p) p := up_inv_step hi hcond.1 hinv hgt
      rcases ih (swapL l i p) p hpm hpf hinv' with ⟨IH1, IH2, IH3, IH4⟩
      refine ⟨by omega, by rw [IH2, length_swapL], ?_, ?_⟩
      · intro hri
        omega
      · intro _
        by_cases hrp : (up_loop_l fuel (swapL l i p) p).2 = p
        · rcases IH3 hrp with ⟨hres, hai⟩
          rw [hres]
          apply ad_inv_ord hai
          intro c hc hcl hcp
          rw [length_swapL] at hcl
          have hcgtp : p < c := by
            have := (child_cases hc).mp hcp
            omega
          have eqp : pA (swapL l i p) p = pA l i := pA_swapL_right hpl
          by_cases hci : c = i
          · rw [hci, eqp, pA_swapL_left (by omega) hi]
            exact hgt.le
          · rw [eqp, pA_swapL_other hci (by omega)]
            have h2 := hinv.1 c hc hcl hci (by rw [hcp]; omega)
            rw [hcp] at h2
            exact le_trans hgt.le h2
        · exact IH4 hrp
    · have heq : up_loop_l (fuel + 1) l i = (l, i) := by
        simp only [up_loop_l]
        rw [if_neg hcond]
      rw [heq]
      have hstop : i = 0 ∨ (pA l ((i - 1) / 2)).1 ≤ (pA l i).1 := by
        by_cases h0 : i = 0
        · exact Or.inl h0
        · right
          have h1 : ¬ 0 < cmp_pty (pA l ((i - 1) / 2)).1 (pA l i).1 := by
            intro hc
            exact hcond ⟨by omega, hc⟩
          exact cmp_pty_nonpos.mp (not_lt.mp h1)
      exact ⟨le_refl i, rfl, fun _ => ⟨rfl, up_inv_stop hinv hstop⟩, fun hne => absurd rfl hne⟩

theorem ad_inv_step {l : List (P × E)} {i c : Nat} (hi : i < l.length) (hc : c < l.length)
    (hc0 : 0 < c) (hcp : (c - 1) / 2 = i)
    (hinv : ad_inv l i)
    (hlt : (pA l c).1 < (pA l i).1)
    (hmin : ∀ c', 0 < c' → c' < l.length → (c' - 1) / 2 = i → (pA l c).1 ≤ (pA l c').1) :
    ad_inv (swapL l i c) c := by
  have hic : i < c := by
    have := (child_cases hc0).mp hcp
    omega
  have eqi : pA (swapL l i c) i = pA l c := pA_swapL_left (by omega) hi
  have eqc : pA (swapL l i c) c = pA l i := pA_swapL_right hc
  have eqo : ∀ k, k ≠ i → k ≠ c → pA (swapL l i c) k = pA l k := by
    intro k h1 h2
    exact pA_swapL_other h1 h2
  have hlen : (swapL l i c).length = l.length := length_swapL l i c
  constructor
  · intro j hj hjl hpjc
    rw [hlen] at hjl
    by_cases hji : j = i
    · subst hji
      have hj0 : 0 < j := hj
      have hpi : (j - 1) / 2 < j := parent_lt hj
      rw [eqi, eqo _ (by omega) (by omega)]
      exact hinv.2 c hc0 hc hcp hj
    · by_cases hpj : (j - 1) / 2 = i
      · by_cases hjc : j = c
        · subst hjc
          rw [hpj, eqi, eqc]
          exact hlt.le
        · rw [hpj, eqi, eqo j hji hjc]
          exact hmin j hj hjl hpj
      · have hjc : j ≠ c := by
          intro hjc
          apply hpj
          rw [hjc]
          exact hcp
        rw [eqo _ hpj hpjc, eqo j hji hjc]
        exact hinv.1 j hj hjl hpj
  · intro g hg hgl hgp hc0'
    rw [hlen] at hgl
    have hcg : c < g := by
      have := (child_cases hg).mp hgp
      omega
    rw [hcp, eqi, eqo g (by omega) (by omega)]
    have h := hinv.1 g hg hgl (by rw [hgp]; omega)
    rw [hgp] at h
    exact h

theorem down_fin_l_spec {l : List (P × E)} {i : Nat} (hi : i < l.length)
    (hinv : ad_inv l i) (hng : ¬ down_guard l.length i) :
    heap_ord (down_fin_l l i).1 ∧ (down_fin_l l i).1.length = l.length := by
  have hng' : ¬ (i + 2 ≤ l.length - 1 - i) := hng
  unfold down_fin_l
  by_cases hcond : down_one_child l.length i ∧
      0 < cmp_pty (pA l i).1 (pA l (2 * i + 1)).1
  · rw [if_pos hcond]
    have h1' : i + 1 = l.length - 1 - i := hcond.1
    have hjll : 2 * i + 1 < l.length := by omega
    have hlt : (pA l (2 * i + 1)).1 < (pA l i).1 := cmp_pty_pos.mp hcond.2
    have hmin : ∀ c', 0 < c' → c' < l.length → (c' - 1) / 2 = i →
        (pA l (2 * i + 1)).1 ≤ (pA l c').1 := by
      intro c' hc0 hcl hcp
      have hcc := (child_cases hc0).mp hcp
      have hc1 : c' = 2 * i + 1 := by omega
      rw [hc1]
    have hstep := ad_inv_step hi hjll (by omega) (by omega) hinv hlt hmin
    constructor
    · apply ad_inv_ord hstep
      intro c hc hcl hcp
      exfalso
      rw [length_swapL] at hcl
      have := (child_cases hc).mp hcp
      omega
    · exact length_swapL l i (2 * i + 1)
  · rw [if_neg hcond]
    refine ⟨?_, rfl⟩
    apply ad_inv_ord hinv
    intro c hc hcl hcp
    have hcc := (child_cases hc).mp hcp
    by_cases h1 : down_one_child l.length i
    · have h1' : i + 1 = l.length - 1 - i := h1
      have hc1 : c = 2 * i + 1 := by omega
      have hle : ¬ 0 < cmp_pty (pA l i).1 (pA l (2 * i + 1)).1 := fun hcmp =>
        hcond ⟨h1, hcmp⟩
      rw [hc1]
      exact cmp_pty_nonpos.mp (not_lt.mp hle)
    · exfalso
      have h1' : ¬ (i + 1 = l.length - 1 - i) := h1
      omega

theorem down_loop_l_spec :
    ∀ (fuel : Nat) (l : List (P × E)) (i : Nat),
    i < l.length → l.length ≤ fuel + i → ad_inv l i →
    heap_ord (down_loop_l fuel l i).1 ∧ (down_loop_l fuel l i).1.length = l.length := by
  intro fuel
  induction fuel with
  | zero => intro l i hi hf _; omega
  | succ fuel ih =>
    intro l i hi hf hinv
    by_cases hg : down_guard l.length i
    · have hg' : i + 2 ≤ l.length - 1 - i := hg
      have hjl : 2 * i + 1 < l.length := by omega
      have hjr : 2 * i + 2 < l.length := by omega
      by_cases hc1 : 0 < cmp_pty (pA l i).1 (pA l (2 * i + 1)).1 ∧
          cmp_pty (pA l (2 * i + 1)).1 (pA l (2 * i + 2)).1 ≤ 0
      · have heq : down_loop_l (fuel + 1) l i =
            down_loop_l fuel (swapL l i (2 * i + 1)) (2 * i + 1) := by
          simp only [down_loop_l]
          rw [if_pos hg, if_pos hc1]
        rw [heq]
        have hlt := cmp_pty_pos.mp hc1.1
        have hle := cmp_pty_nonpos.mp hc1.2
        have hmin : ∀ c', 0 < c' → c' < l.length → (c' - 1) / 2 = i →
            (pA l (2 * i + 1)).1 ≤ (pA l c').1 := by
          intro c' h0 hcl hcp
          rcases (child_cases h0).mp hcp with h | h
          · rw [h]
          · rw [h]
            exact hle
        have hstep := ad_inv_step hi hjl (by omega) (by omega) hinv hlt hmin
        rcases ih (swapL l i (2 * i + 1)) (2 * i + 1)
            (by rw [length_swapL]; exact hjl)
            (by rw [length_swapL]; omega) hstep with ⟨H1, H2⟩
        exact ⟨H1, by rw [H2, length_swapL]⟩
      · by_cases hc2 : 0 < cmp_pty (pA l i).1 (pA l (2 * i + 2)).1
        · have heq : down_loop_l (fuel + 1) l i =
              down_loop_l fuel (swapL l i (2 * i + 2)) (2 * i + 2) := by
            simp only [down_loop_l]
            rw [if_pos hg, if_neg hc1, if_pos hc2]
          rw [heq]
          have hlt := cmp_pty_pos.mp hc2
          have hmin : ∀ c', 0 < c' → c' < l.length → (c' - 1) / 2 = i →
              (pA l (2 * i + 2)).1 ≤ (pA l c').1 := by
            intro c' h0 hcl hcp
            rcases (child_cases h0).mp hcp with h | h
            · rw [h]
              by_cases hxl : 0 < cmp_pty (pA l i).1 (pA l (2 * i + 1)).1
              · have hnb : ¬ cmp_pty (pA l (2 * i + 1)).1 (pA l (2 * i + 2)).1 ≤ 0 :=
                  fun hb => hc1 ⟨hxl, hb⟩
                have := cmp_pty_pos.mp (not_le.mp hnb)
                exact this.le
              · have hil := cmp_pty_nonpos.mp (not_lt.mp hxl)
                exact le_trans hlt.le hil
            · rw [h]
          have hstep := ad_inv_step hi hjr (by omega) (by omega) hinv hlt hmin
          rcases ih (swapL l i (2 * i + 2)) (2 * i + 2)
              (by rw [length_swapL]; exact hjr)
              (by rw [length_swapL]; omega) hstep with ⟨H1, H2⟩
          exact ⟨H1, by rw [H2, length_swapL]⟩
        · have heq : down_loop_l (fuel + 1) l i = down_fin_l l i := by
            simp only [down_loop_l]
            rw [if_pos hg, if_neg hc1, if_neg hc2]
          rw [heq]
          have hfin : down_fin_l l i = (l, i) := by
            unfold down_fin_l
            rw [if_neg]
            intro hcc
            have h1' : i + 1 = l.length - 1 - i := hcc.1
            omega
          rw [hfin]
          refine ⟨?_, rfl⟩
          apply ad_inv_ord hinv
          intro c hc hcl hcp
          have hir : (pA l i).1 ≤ (pA l (2 * i + 2)).1 :=
            cmp_pty_nonpos.mp (not_lt.mp hc2)
          have hil : (pA l i).1 ≤ (pA l (2 * i + 1)).1 := by
            by_contra hno
            have hlt1 : (pA l (2 * i + 1)).1 < (pA l i).1 := not_le.mp hno
            have hx1 : 0 < cmp_pty (pA l i).1 (pA l (2 * i + 1)).1 := cmp_pty_pos.mpr hlt1
            have hnb : ¬ cmp_pty (pA l (2 * i + 1)).1 (pA l (2 * i + 2)).1 ≤ 0 :=
              fun hb => hc1 ⟨hx1, hb⟩
            have hrl := cmp_pty_pos.mp (not_le.mp hnb)
            exact absurd (lt_trans (lt_of_le_of_lt hir hrl) hlt1) (lt_irrefl _)
          rcases (child_cases hc).mp hcp with h | h
          · rw [h]
            exact hil
          · rw [h]
            exact hir
    · have heq : down_loop_l (fuel + 1) l i = down_fin_l l i := by
        simp only [down_loop_l]
        rw [if_neg hg]
      rw [heq]
      exact down_fin_l_spec hi hinv hg

theorem down_fin_l_of_ord {l : List (P × E)} {i : Nat} (ho : heap_ord l) (hi : i < l.length) :
    down_fin_l l i = (l, i) := by
  unfold down_fin_l
  rw [if_neg]
  intro hcc
  have h1' : i + 1 = l.length - 1 - i := hcc.1
  have hjll : 2 * i + 1 < l.length := by omega
  have h := ho (2 * i + 1) (by omega) hjll
  have hp : (2 * i + 1 - 1) / 2 = i := by omega
  rw [hp] at h
  exact absurd (cmp_pty_pos.mp hcc.2) (not_lt.mpr h)

theorem down_loop_l_of_ord (fuel : Nat) {l : List (P × E)} {i : Nat}
    (ho : heap_ord l) (hi : i < l.length) :
    down_loop_l fuel l i = (l, i) := by
  cases fuel with
  | zero => rfl
  | succ fuel =>
    simp only [down_loop_l]
    by_cases hg : down_guard l.length i
    · rw [if_pos hg]
      have hg' : i + 2 ≤ l.length - 1 - i := hg
      have hjl : 2 * i + 1 < l.length := by omega
      have hjr : 2 * i + 2 < l.length := by omega
      have hl1 : (pA l i).1 ≤ (pA l (2 * i + 1)).1 := by
        have h := ho (2 * i + 1) (by omega) hjl
        have hp : (2 * i + 1 - 1) / 2 = i := by omega
        rwa [hp] at h
      have hl2 : (pA l i).1 ≤ (pA l (2 * i + 2)).1 := by
        have h := ho (2 * i + 2) (by omega) hjr
        have hp : (2 * i + 2 - 1) / 2 = i := by omega
        rwa [hp] at h
      have hn1 : ¬ (0 < cmp_pty (pA l i).1 (pA l (2 * i + 1)).1 ∧
          cmp_pty (pA l (2 * i + 1)).1 (pA l (2 * i + 2)).1 ≤ 0) := by
        intro hcc
        exact absurd (cmp_pty_pos.mp hcc.1) (not_lt.mpr hl1)
      have hn2 : ¬ 0 < cmp_pty (pA l i).1 (pA l (2 * i + 2)).1 := by
        intro hcc
        exact absurd (cmp_pty_pos.mp hcc) (not_lt.mpr hl2)
      rw [if_neg hn1, if_neg hn2]
      exact down_fin_l_of_ord ho hi
    · rw [if_neg hg]
      exact down_fin_l_of_ord ho hi

theorem up_loop_l_perm : ∀ (fuel : Nat) (l : List (P × E)) (i : Nat), i < l.length →
    List.Perm (up_loop_l fuel l i).1 l := by
  intro fuel
  induction fuel with
  | zero => intro l i _; exact List.Perm.refl l
  | succ fuel ih =>
    intro l i hi
    by_cases hcond : 0 < i ∧ 0 < cmp_pty (pA l ((i - 1) / 2)).1 (pA l i).1
    · have heq : up_loop_l (fuel + 1) l i =
          up_loop_l fuel (swapL l i ((i - 1) / 2)) ((i - 1) / 2) := by
        simp only [up_loop_l, if_pos hcond]
      rw [heq]
      have hp : (i - 1) / 2 < i := parent_lt hcond.1
      have hpl : (i - 1) / 2 < l.length := lt_trans hp hi
      have h1 := ih (swapL l i ((i - 1) / 2)) ((i - 1) / 2)
        (by rw [length_swapL]; exact hpl)
      exact List.Perm.trans h1 (swapL_perm hi hpl)
    · have heq : up_loop_l (fuel + 1) l i = (l, i) := by
        simp only [up_loop_l]
        rw [if_neg hcond]
      rw [heq]

theorem down_fin_l_perm {l : List (P × E)} {i : Nat} (hi : i < l.length) :
    List.Perm (down_fin_l l i).1 l := by
  unfold down_fin_l
  by_cases hcond : down_one_child l.length i ∧
      0 < cmp_pty (pA l i).1 (pA l (2 * i + 1)).1
  · rw [if_pos hcond]
    have h1' : i + 1 = l.length - 1 - i := hcond.1
    exact swapL_perm hi (by omega)
  · rw [if_neg hcond]

theorem down_loop_l_perm : ∀ (fuel : Nat) (l : List (P × E)) (i : Nat), i < l.length →
    List.Perm (down_loop_l fuel l i).1 l := by
  intro fuel
  induction fuel with
  | zero => intro l i _; exact List.Perm.refl l
  | succ fuel ih =>
    intro l i hi
    by_cases hg : down_guard l.length i
    · have hg' : i + 2 ≤ l.length - 1 - i := hg
      have hjl : 2 * i + 1 < l.length := by omega
      have hjr : 2 * i + 2 < l.length := by omega
      by_cases hc1 : 0 < cmp_pty (pA l i).1 (pA l (2 * i + 1)).1 ∧
          cmp_pty (pA l (2 * i + 1)).1 (pA l (2 * i + 2)).1 ≤ 0
      · have heq : down_loop_l (fuel + 1) l i =
            down_loop_l fuel (swapL l i (2 * i + 1)) (2 * i + 1) := by
          simp only [down_loop_l]
          rw [if_pos hg, if_pos hc1]
        rw [heq]
        exact List.Perm.trans
          (ih (swapL l i (2 * i + 1)) (2 * i + 1) (by rw [length_swapL]; exact hjl))
          (swapL_perm hi hjl)
      · by_cases hc2 : 0 < cmp_pty (pA l i).1 (pA l (2 * i + 2)).1
        · have heq : down_loop_l (fuel + 1) l i =
              down_loop_l fuel (swapL l i (2 * i + 2)) (2 * i + 2) := by
            simp only [down_loop_l]
            rw [if_pos hg, if_neg hc1, if_pos hc2]
          rw [heq]
          exact List.Perm.trans
            (ih (swapL l i (2 * i + 2)) (2 * i + 2) (by rw [length_swapL]; exact hjr))
            (swapL_perm hi hjr)
        · have heq : down_loop_l (fuel + 1) l i = down_fin_l l i := by
            simp only [down_loop_l]
            rw [if_pos hg, if_neg hc1, if_neg hc2]
          rw [heq]
          exact down_fin_l_perm hi
    · have heq : down_loop_l (fuel + 1) l i = down_fin_l l i := by
        simp only [down_loop_l]
        rw [if_neg hg]
      rw [heq]
      exact down_fin_l_perm hi

theorem half_swap_eq {h : heap_t P E} {t s : Nat} (hne : s ≠ t) (ht : t < h.pty_elts.length) :
    (half_swap h t s).pty_elts = h.pty_elts.set t (pA h.pty_elts s) ∧
    (half_swap h t s).ht = ht_insert h.ht (pA h.pty_elts s).2 t ∧
    (half_swap h t s).count = h.count := by
  unfold half_swap
  rw [if_neg hne]
  refine ⟨rfl, ?_, rfl⟩
  simp only
  rw [pA_set_self ht]

theorem step_rel {h : heap_t P E} {buf : P × E} {ix s : Nat}
    (hix : ix < h.pty_elts.length) (hs : s < h.pty_elts.length) (hne : s ≠ ix)
    (hnd : eltsNodup (h.pty_elts.set ix buf))
    (hmatch : ∀ e, e ≠ buf.2 → h.ht e = slotOf e (h.pty_elts.set ix buf)) :
    (half_swap h ix s).pty_elts.set s buf = swapL (h.pty_elts.set ix buf) ix s ∧
    (half_swap h ix s).pty_elts.length = h.pty_elts.length ∧
    (half_swap h ix s).count = h.count ∧
    (∀ e, e ≠ buf.2 →
      (half_swap h ix s).ht e = slotOf e (swapL (h.pty_elts.set ix buf) ix s)) := by
  rcases half_swap_eq hne hix with ⟨hp, hh, hc⟩
  have hqm : pA (h.pty_elts.set ix buf) s = pA h.pty_elts s := pA_set_ne (by omega) buf
  have hbm : pA (h.pty_elts.set ix buf) ix = buf := pA_set_self hix buf
  have hixm : ix < (h.pty_elts.set ix buf).length := by simpa using hix
  have hsm : s < (h.pty_elts.set ix buf).length := by simpa using hs
  have hsw2 : swapL (h.pty_elts.set ix buf) ix s =
      (h.pty_elts.set ix (pA h.pty_elts s)).set s buf := by
    unfold swapL
    rw [hqm, hbm, List.set_set]
  refine ⟨?_, ?_, hc, ?_⟩
  · rw [hp, hsw2]
  · rw [hp]
    simp
  · intro e he
    rw [hh]
    unfold ht_insert
    by_cases heq : e = (pA h.pty_elts s).2
    · rw [if_pos heq, heq]
      have hsl : pA (swapL (h.pty_elts.set ix buf) ix s) ix =
          pA (h.pty_elts.set ix buf) s := pA_swapL_left (by omega) hixm
      apply Eq.symm
      apply slotOf_of_nodup (swapL_nodup hixm hsm hnd)
        (by rw [length_swapL]; exact hixm)
      rw [hsl, hqm]
    · rw [if_neg heq]
      rw [hmatch e he]
      apply Eq.symm
      apply slotOf_swapL_other hnd hixm hsm
      · rw [hbm]
        exact he
      · rw [hqm]
        exact heq

theorem up_loop_spec : ∀ (fuel : Nat) (h : heap_t P E) (buf : P × E) (ix : Nat),
    ix < h.pty_elts.length →
    eltsNodup (h.pty_elts.set ix buf) →
    (∀ e, e ≠ buf.2 → h.ht e = slotOf e (h.pty_elts.set ix buf)) →
    (up_loop fuel h buf ix).1.pty_elts.set (up_loop fuel h buf ix).2 buf =
      (up_loop_l fuel (h.pty_elts.set ix buf) ix).1 ∧
    (up_loop fuel h buf ix).2 = (up_loop_l fuel (h.pty_elts.set ix buf) ix).2 ∧
    (up_loop fuel h buf ix).2 < h.pty_elts.length ∧
    (up_loop fuel h buf ix).1.pty_elts.length = h.pty_elts.length ∧
    (up_loop fuel h buf ix).1.count = h.count ∧
    (∀ e, e ≠ buf.2 → (up_loop fuel h buf ix).1.ht e =
      slotOf e ((up_loop fuel h buf ix).1.pty_elts.set (up_loop fuel h buf ix).2 buf)) := by
  intro fuel
  induction fuel with
  | zero =>
    intro h buf ix hix hnd hmatch
    exact ⟨rfl, rfl, hix, rfl, rfl, hmatch⟩
  | succ fuel ih =>
    intro h buf ix hix hnd hmatch
    by_cases hix0 : 0 < ix
    · have hju : (ix - 1) / 2 < ix := parent_lt hix0
      have hjul : (ix - 1) / 2 < h.pty_elts.length := lt_trans hju hix
      have hbm : pA (h.pty_elts.set ix buf) ix = buf := pA_set_self hix buf
      have hqm : pA (h.pty_elts.set ix buf) ((ix - 1) / 2) =
          pA h.pty_elts ((ix - 1) / 2) := pA_set_ne (by omega) buf
      by_cases hcmp : 0 < cmp_pty (pA h.pty_elts ((ix - 1) / 2)).1 buf.1
      · have heq : up_loop (fuel + 1) h buf ix =
            up_loop fuel (half_swap h ix ((ix - 1) / 2)) buf ((ix - 1) / 2) := by
          simp only [up_loop]
          rw [if_pos hix0, if_pos hcmp]
        have heql : up_loop_l (fuel + 1) (h.pty_elts.set ix buf) ix =
            up_loop_l fuel (swapL (h.pty_elts.set ix buf) ix ((ix - 1) / 2)) ((ix - 1) / 2) := by
          simp only [up_loop_l]
          rw [if_pos ⟨hix0, by rw [hqm, hbm]; exact hcmp⟩]
        rw [heq, heql]
        rcases step_rel hix hjul (by omega) hnd hmatch with ⟨S1, S2, S3, S4⟩
        have hnd' : eltsNodup ((half_swap h ix ((ix - 1) / 2)).pty_elts.set ((ix - 1) / 2) buf) := by
          rw [S1]
          exact swapL_nodup (by simpa using hix) (by simpa using hjul) hnd
        have hmatch' : ∀ e, e ≠ buf.2 → (half_swap h ix ((ix - 1) / 2)).ht e =
            slotOf e ((half_swap h ix ((ix - 1) / 2)).pty_elts.set ((ix - 1) / 2) buf) := by
          intro e he
          rw [S1]
          exact S4 e he
        rcases ih (half_swap h ix ((ix - 1) / 2)) buf ((ix - 1) / 2)
            (by rw [S2]; exact hjul) hnd' hmatch' with ⟨I1, I2, I3, I4, I5, I6⟩
        refine ⟨?_, ?_, by omega, by rw [I4, S2], by rw [I5, S3], I6⟩
        · rw [I1, S1]
        · rw [I2, S1]
      · have heq : up_loop (fuel + 1) h buf ix = (h, ix) := by
          simp only [up_loop]
          rw [if_pos hix0, if_neg hcmp]
        have heql : up_loop_l (fuel + 1) (h.pty_elts.set ix buf) ix =
            (h.pty_elts.set ix buf, ix) := by
          simp only [up_loop_l]
          rw [if_neg]
          intro hcc
          apply hcmp
          have hcc2 := hcc.2
          rw [hqm, hbm] at hcc2
          exact hcc2
        rw [heq, heql]
        exact ⟨rfl, rfl, hix, rfl, rfl, hmatch⟩
    · have heq : up_loop (fuel + 1) h buf ix = (h, ix) := by
        simp only [up_loop]
        rw [if_neg hix0]
      have heql : up_loop_l (fuel + 1) (h.pty_elts.set ix buf) ix =
          (h.pty_elts.set ix buf, ix) := by
        simp only [up_loop_l]
        rw [if_neg]
        intro hcc
        exact hix0 hcc.1
      rw [heq, heql]
      exact ⟨rfl, rfl, hix, rfl, rfl, hmatch⟩

theorem heapify_up_spec {h : heap_t P E} {i : Nat} (hi : i < h.pty_elts.length)
    (hnd : eltsNodup h.pty_elts)
    (hmatch : ∀ e, e ≠ (pA h.pty_elts i).2 → h.ht e = slotOf e h.pty_elts) :
    (heapify_up h i).pty_elts = (up_loop_l (i + 1) h.pty_elts i).1 ∧
    (heapify_up h i).pty_elts.length = h.pty_elts.length ∧
    (heapify_up h i).count = h.count ∧
    eltsNodup (heapify_up h i).pty_elts ∧
    (∀ e, (heapify_up h i).ht e = slotOf e (heapify_up h i).pty_elts) := by
  have hmset : h.pty_elts.set i (pA h.pty_elts i) = h.pty_elts := set_pA_self hi
  rcases up_loop_spec (i + 1) h (pA h.pty_elts i) i hi
      (by rw [hmset]; exact hnd)
      (by intro e he; rw [hmset]; exact hmatch e he) with ⟨S1, S2, S3, S4, S5, S6⟩
  rw [hmset] at S1 S2
  have hfp : (heapify_up h i).pty_elts =
      (up_loop (i + 1) h (pA h.pty_elts i) i).1.pty_elts.set
        (up_loop (i + 1) h (pA h.pty_elts i) i).2 (pA h.pty_elts i) := rfl
  have hr : (up_loop (i + 1) h (pA h.pty_elts i) i).2 <
      (up_loop (i + 1) h (pA h.pty_elts i) i).1.pty_elts.length := by
    rw [S4]
    exact S3
  have hnd' : eltsNodup (heapify_up h i).pty_elts := by
    rw [hfp, S1]
    unfold eltsNodup
    exact (((up_loop_l_perm (i + 1) h.pty_elts i hi).map Prod.snd).nodup_iff).mpr hnd
  refine ⟨by rw [hfp, S1], by rw [hfp]; simpa using S4, S5, hnd', ?_⟩
  intro e
  have hfh : (heapify_up h i).ht =
      ht_insert (up_loop (i + 1) h (pA h.pty_elts i) i).1.ht
        (pA (heapify_up h i).pty_elts (up_loop (i + 1) h (pA h.pty_elts i) i).2).2
        (up_loop (i + 1) h (pA h.pty_elts i) i).2 := rfl
  have hpb : pA (heapify_up h i).pty_elts (up_loop (i + 1) h (pA h.pty_elts i) i).2 =
      pA h.pty_elts i := by
    rw [hfp]
    exact pA_set_self hr _
  rw [hfh, hpb]
  unfold ht_insert
  by_cases he : e = (pA h.pty_elts i).2
  · rw [if_pos he, he]
    apply Eq.symm
    apply slotOf_of_nodup hnd' (by rw [hfp]; simpa using hr)
    rw [hpb]
  · rw [if_neg he]
    rw [S6 e he, hfp]

theorem down_fin_spec {h : heap_t P E} {buf : P × E} {ix : Nat}
    (hix : ix < h.pty_elts.length)
    (hnd : eltsNodup (h.pty_elts.set ix buf))
    (hmatch : ∀ e, e ≠ buf.2 → h.ht e = slotOf e (h.pty_elts.set ix buf)) :
    (down_fin h buf ix).1.pty_elts.set (down_fin h buf ix).2 buf =
      (down_fin_l (h.pty_elts.set ix buf) ix).1 ∧
    (down_fin h buf ix).2 = (down_fin_l (h.pty_elts.set ix buf) ix).2 ∧
    (down_fin h buf ix).2 < h.pty_elts.length ∧
    (down_fin h buf ix).1.pty_elts.length = h.pty_elts.length ∧
    (down_fin h buf ix).1.count = h.count ∧
    (∀ e, e ≠ buf.2 → (down_fin h buf ix).1.ht e =
      slotOf e ((down_fin h buf ix).1.pty_elts.set (down_fin h buf ix).2 buf)) := by
  have hml : (h.pty_elts.set ix buf).length = num_elts h := by
    simp [num_elts]
  have hbm : pA (h.pty_elts.set ix buf) ix = buf := pA_set_self hix buf
  by_cases h1 : down_one_child (num_elts h) ix
  · have h1' : ix + 1 = num_elts h - 1 - ix := h1
    have hn : num_elts h = h.pty_elts.length := rfl
    have hjll : 2 * ix + 1 < h.pty_elts.length := by omega
    have hjm : pA (h.pty_elts.set ix buf) (2 * ix + 1) = pA h.pty_elts (2 * ix + 1) :=
      pA_set_ne (by omega) buf
    have h1m : down_one_child (h.pty_elts.set ix buf).length ix := by
      rw [hml]
      exact h1
    by_cases h2 : 0 < cmp_pty buf.1 (pA h.pty_elts (2 * ix + 1)).1
    · have heq : down_fin h buf ix = (half_swap h ix (2 * ix + 1), 2 * ix + 1) := by
        simp only [down_fin]
        rw [if_pos h1, if_pos h2]
      have heql : down_fin_l (h.pty_elts.set ix buf) ix =
          (swapL (h.pty_elts.set ix buf) ix (2 * ix + 1), 2 * ix + 1) := by
        simp only [down_fin_l]
        rw [if_pos ⟨h1m, by rw [hbm, hjm]; exact h2⟩]
      rw [heq, heql]
      rcases step_rel hix hjll (by omega) hnd hmatch with ⟨S1, S2, S3, S4⟩
      refine ⟨S1, rfl, hjll, S2, S3, ?_⟩
      intro e he
      show (half_swap h ix (2 * ix + 1)).ht e =
        slotOf e ((half_swap h ix (2 * ix + 1)).pty_elts.set (2 * ix + 1) buf)
      rw [S1]
      exact S4 e he
    · have heq : down_fin h buf ix = (h, ix) := by
        simp only [down_fin]
        rw [if_pos h1, if_neg h2]
      have heql : down_fin_l (h.pty_elts.set ix buf) ix = (h.pty_elts.set ix buf, ix) := by
        simp only [down_fin_l]
        rw [if_neg]
        intro hcc
        apply h2
        have hcc2 := hcc.2
        rw [hbm, hjm] at hcc2
        exact hcc2
      rw [heq, heql]
      exact ⟨rfl, rfl, hix, rfl, rfl, hmatch⟩
  · have heq : down_fin h buf ix = (h, ix) := by
      simp only [down_fin]
      rw [if_neg h1]
    have heql : down_fin_l (h.pty_elts.set ix buf) ix = (h.pty_elts.set ix buf, ix) := by
      simp only [down_fin_l]
      rw [if_neg]
      intro hcc
      apply h1
      rw [← hml]
      exact hcc.1
    rw [heq, heql]
    exact ⟨rfl, rfl, hix, rfl, rfl, hmatch⟩

theorem down_loop_spec : ∀ (fuel : Nat) (h : heap_t P E) (buf : P × E) (ix : Nat),
    ix < h.pty_elts.length →
    eltsNodup (h.pty_elts.set ix buf) →
    (∀ e, e ≠ buf.2 → h.ht e = slotOf e (h.pty_elts.set ix buf)) →
    (down_loop fuel h buf ix).1.pty_elts.set (down_loop fuel h buf ix).2 buf =
      (down_loop_l fuel (h.pty_elts.set ix buf) ix).1 ∧
    (down_loop fuel h buf ix).2 = (down_loop_l fuel (h.pty_elts.set ix buf) ix).2 ∧
    (down_loop fuel h buf ix).2 < h.pty_elts.length ∧
    (down_loop fuel h buf ix).1.pty_elts.length = h.pty_elts.length ∧
    (down_loop fuel h buf ix).1.count = h.count ∧
    (∀ e, e ≠ buf.2 → (down_loop fuel h buf ix).1.ht e =
      slotOf e ((down_loop fuel h buf ix).1.pty_elts.set (down_loop fuel h buf ix).2 buf)) := by
  intro fuel
  induction fuel with
  | zero =>
    intro h buf ix hix hnd hmatch
    exact ⟨rfl, rfl, hix, rfl, rfl, hmatch⟩
  | succ fuel ih =>
    intro h buf ix hix hnd hmatch
    have hml : (h.pty_elts.set ix buf).length = num_elts h := by
      simp [num_elts]
    have hn : num_elts h = h.pty_elts.length := rfl
    have hbm : pA (h.pty_elts.set ix buf) ix = buf := pA_set_self hix buf
    by_cases hg : down_guard (num_elts h) ix
    · have hg' : ix + 2 ≤ num_elts h - 1 - ix := hg
      have hjll : 2 * ix + 1 < h.pty_elts.length := by omega
      have hjrl : 2 * ix + 2 < h.pty_elts.length := by omega
      have hjlm : pA (h.pty_elts.set ix buf) (2 * ix + 1) = pA h.pty_elts (2 * ix + 1) :=
        pA_set_ne (by omega) buf
      have hjrm : pA (h.pty_elts.set ix buf) (2 * ix + 2) = pA h.pty_elts (2 * ix + 2) :=
        pA_set_ne (by omega) buf
      have hgm : down_guard (h.pty_elts.set ix buf).length ix := by
        rw [hml]
        exact hg
      by_cases hc1 : 0 < cmp_pty buf.1 (pA h.pty_elts (2 * ix + 1)).1 ∧
          cmp_pty (pA h.pty_elts (2 * ix + 1)).1 (pA h.pty_elts (2 * ix + 2)).1 ≤ 0
      · have heq : down_loop (fuel + 1) h buf ix =
            down_loop fuel (half_swap h ix (2 * ix + 1)) buf (2 * ix + 1) := by
          simp only [down_loop]
          rw [if_pos hg, if_pos hc1]
        have heql : down_loop_l (fuel + 1) (h.pty_elts.set ix buf) ix =
            down_loop_l fuel (swapL (h.pty_elts.set ix buf) ix (2 * ix + 1)) (2 * ix + 1) := by
          simp only [down_loop_l]
          rw [if_pos hgm,
            if_pos ⟨by rw [hbm, hjlm]; exact hc1.1, by rw [hjlm, hjrm]; exact hc1.2⟩]
        rw [heq, heql]
        rcases step_rel hix hjll (by omega) hnd hmatch with ⟨S1, S2, S3, S4⟩
        have hnd' : eltsNodup
            ((half_swap h ix (2 * ix + 1)).pty_elts.set (2 * ix + 1) buf) := by
          rw [S1]
          exact swapL_nodup (by simpa using hix) (by simpa using hjll) hnd
        have hmatch' : ∀ e, e ≠ buf.2 → (half_swap h ix (2 * ix + 1)).ht e =
            slotOf e ((half_swap h ix (2 * ix + 1)).pty_elts.set (2 * ix + 1) buf) := by
          intro e he
          rw [S1]
          exact S4 e he
        rcases ih (half_swap h ix (2 * ix + 1)) buf (2 * ix + 1)
            (by rw [S2]; exact hjll) hnd' hmatch' with ⟨I1, I2, I3, I4, I5, I6⟩
        refine ⟨?_, ?_, by omega, by rw [I4, S2], by rw [I5, S3], I6⟩
        · rw [I1, S1]
        · rw [I2, S1]
      · by_cases hc2 : 0 < cmp_pty buf.1 (pA h.pty_elts (2 * ix + 2)).1
        · have heq : down_loop (fuel + 1) h buf ix =
              down_loop fuel (half_swap h ix (2 * ix + 2)) buf (2 * ix + 2) := by
            simp only [down_loop]
            rw [if_pos hg, if_neg hc1, if_pos hc2]
          have heql : down_loop_l (fuel + 1) (h.pty_elts.set ix buf) ix =
              down_loop_l fuel (swapL (h.pty_elts.set ix buf) ix (2 * ix + 2)) (2 * ix + 2) := by
            simp only [down_loop_l]
            rw [if_pos hgm, if_neg ?negl, if_pos (by rw [hbm, hjrm]; exact hc2)]
            case negl =>
              intro hcc
              apply hc1
              rcases hcc with ⟨hca, hcb⟩
              rw [hbm, hjlm] at hca
              rw [hjlm, hjrm] at hcb
              exact ⟨hca, hcb⟩
          rw [heq, heql]
          rcases step_rel hix hjrl (by omega) hnd hmatch with ⟨S1, S2, S3, S4⟩
          have hnd' : eltsNodup
              ((half_swap h ix (2 * ix + 2)).pty_elts.set (2 * ix + 2) buf) := by
            rw [S1]
            exact swapL_nodup (by simpa using hix) (by simpa using hjrl) hnd
          have hmatch' : ∀ e, e ≠ buf.2 → (half_swap h ix (2 * ix + 2)).ht e =
              slotOf e ((half_swap h ix (2 * ix + 2)).pty_elts.set (2 * ix + 2) buf) := by
            intro e he
            rw [S1]
            exact S4 e he
          rcases ih (half_swap h ix (2 * ix + 2)) buf (2 * ix + 2)
              (by rw [S2]; exact hjrl) hnd' hmatch' with ⟨I1, I2, I3, I4, I5, I6⟩
          refine ⟨?_, ?_, by omega, by rw [I4, S2], by rw [I5, S3], I6⟩
          · rw [I1, S1]
          · rw [I2, S1]
        · have heq : down_loop (fuel + 1) h buf ix = down_fin h buf ix := by
            simp only [down_loop]
            rw [if_pos hg, if_neg hc1, if_neg hc2]
          have heql : down_loop_l (fuel + 1) (h.pty_elts.set ix buf) ix =
              down_fin_l (h.pty_elts.set ix buf) ix := by
            simp only [down_loop_l]
            rw [if_pos hgm, if_neg ?negl2, if_neg ?negr2]
            case negl2 =>
              intro hcc
              apply hc1
              rcases hcc with ⟨hca, hcb⟩
              rw [hbm, hjlm] at hca
              rw [hjlm, hjrm] at hcb
              exact ⟨hca, hcb⟩
            case negr2 =>
              intro hcc
              apply hc2
              rw [hbm, hjrm] at hcc
              exact hcc
          rw [heq, heql]
          exact down_fin_spec hix hnd hmatch
    · have heq : down_loop (fuel + 1) h buf ix = down_fin h buf ix := by
        simp only [down_loop]
        rw [if_neg hg]
      have heql : down_loop_l (fuel + 1) (h.pty_elts.set ix buf) ix =
          down_fin_l (h.pty_elts.set ix buf) ix := by
        simp only [down_loop_l]
        rw [if_neg]
        rw [hml]
        exact hg
      rw [heq, heql]
      exact down_fin_spec hix hnd hmatch

theorem heapify_down_spec {h : heap_t P E} {i : Nat} (hi : i < h.pty_elts.length)
    (hnd : eltsNodup h.pty_elts)
    (hmatch : ∀ e, e ≠ (pA h.pty_elts i).2 → h.ht e = slotOf e h.pty_elts) :
    (heapify_down h i).pty_elts = (down_loop_l (num_elts h) h.pty_elts i).1 ∧
    (heapify_down h i).pty_elts.length = h.pty_elts.length ∧
    (heapify_down h i).count = h.count ∧
    eltsNodup (heapify_down h i).pty_elts ∧
    (∀ e, (heapify_down h i).ht e = slotOf e (heapify_down h i).pty_elts) := by
  have hmset : h.pty_elts.set i (pA h.pty_elts i) = h.pty_elts := set_pA_self hi
  rcases down_loop_spec (num_elts h) h (pA h.pty_elts i) i hi
      (by rw [hmset]; exact hnd)
      (by intro e he; rw [hmset]; exact hmatch e he) with ⟨S1, S2, S3, S4, S5, S6⟩
  rw [hmset] at S1 S2
  have hfp : (heapify_down h i).pty_elts =
      (down_loop (num_elts h) h (pA h.pty_elts i) i).1.pty_elts.set
        (down_loop (num_elts h) h (pA h.pty_elts i) i).2 (pA h.pty_elts i) := rfl
  have hr : (down_loop (num_elts h) h (pA h.pty_elts i) i).2 <
      (down_loop (num_elts h) h (pA h.pty_elts i) i).1.pty_elts.length := by
    rw [S4]
    exact S3
  have hnd' : eltsNodup (heapify_down h i).pty_elts := by
    rw [hfp, S1]
    unfold eltsNodup
    exact (((down_loop_l_perm (num_elts h) h.pty_elts i hi).map Prod.snd).nodup_iff).mpr hnd
  refine ⟨by rw [hfp, S1], by rw [hfp]; simpa using S4, S5, hnd', ?_⟩
  intro e
  have hfh : (heapify_down h i).ht =
      ht_insert (down_loop (num_elts h) h (pA h.pty_elts i) i).1.ht
        (pA (heapify_down h i).pty_elts (down_loop (num_elts h) h (pA h.pty_elts i) i).2).2
        (down_loop (num_elts h) h (pA h.pty_elts i) i).2 := rfl
  have hpb : pA (heapify_down h i).pty_elts (down_loop (num_elts h) h (pA h.pty_elts i) i).2 =
      pA h.pty_elts i := by
    rw [hfp]
    exact pA_set_self hr _
  rw [hfh, hpb]
  unfold ht_insert
  by_cases he : e = (pA h.pty_elts i).2
  · rw [if_pos he, he]
    apply Eq.symm
    apply slotOf_of_nodup hnd' (by rw [hfp]; simpa using hr)
    rw [hpb]
  · rw [if_neg he]
    rw [S6 e he, hfp]

theorem heap_init_inv (ps es mn : Nat) : heap_inv (heap_init ps es mn : heap_t P E) := by
  refine ⟨?_, ?_, ?_⟩
  · intro j hj hjl
    simp [heap_init] at hjl
  · simp [heap_init, eltsNodup]
  · intro e
    rfl

theorem set_getD_self {α : Type} {m : List α} {i : Nat} (h : i < m.length) (d : α) :
    m.set i (m.getD i d) = m := by
  apply List.ext_getElem?
  intro n
  rw [List.getElem?_set]
  by_cases hin : i = n
  · subst hin
    rw [if_pos rfl, if_pos h, List.getD_eq_getElem m d h, List.getElem?_eq_getElem h]
  · rw [if_neg hin]

theorem map_snd_set_same {l : List (P × E)} {ix : Nat} (hix : ix < l.length) (p : P) :
    (l.set ix (p, (pA l ix).2)).map Prod.snd = l.map Prod.snd := by
  rw [List.map_set]
  have h2 : Prod.snd (p, (pA l ix).2) = (l.map Prod.snd).getD ix default := by
    rw [List.getD_eq_getElem _ _ (by simpa using hix), List.getElem_map, ← pA_eq_getElem hix]
  rw [h2, set_getD_self (by simpa using hix)]

theorem swap_len (h : heap_t P E) (i j : Nat) :
    (swap h i j).pty_elts.length = h.pty_elts.length := by
  unfold swap
  split
  · rfl
  · simp

theorem swap_self {h : heap_t P E} {i : Nat} : swap h i i = h := by
  unfold swap
  rw [if_pos rfl]

theorem swap_eq {h : heap_t P E} {i j : Nat} (hne : i ≠ j)
    (hi : i < h.pty_elts.length) (hj : j < h.pty_elts.length) :
    (swap h i j).pty_elts = swapL h.pty_elts i j ∧
    (swap h i j).ht =
      ht_insert (ht_insert h.ht (pA h.pty_elts j).2 i) (pA h.pty_elts i).2 j ∧
    (swap h i j).count = h.count := by
  unfold swap
  rw [if_neg hne]
  refine ⟨rfl, ?_, rfl⟩
  show ht_insert (ht_insert h.ht (pA (swapL h.pty_elts i j) i).2 i)
      (pA (swapL h.pty_elts i j) j).2 j = _
  rw [pA_swapL_left hne hi, pA_swapL_right hj]

theorem heap_push_inv {h : heap_t P E} {p : P} {e : E} (hinv : heap_inv h)
    (habs : h.ht e = none) :
    heap_inv (heap_push h p e) ∧
    (∀ x ∈ (heap_push h p e).pty_elts, x ∈ h.pty_elts ++ [(p, e)]) ∧
    num_elts (heap_push h p e) = num_elts h + 1 := by
  rcases hinv with ⟨hord, hnd, hmat⟩
  have hnm : e ∉ h.pty_elts.map Prod.snd := by
    apply slotOf_none_iff.mp
    rw [← hmat e]
    exact habs
  have h0p : (if h.count = num_elts h then { h with count := 2 * h.count } else h).pty_elts
      = h.pty_elts := by
    split <;> rfl
  have h0h : (if h.count = num_elts h then { h with count := 2 * h.count } else h).ht
      = h.ht := by
    split <;> rfl
  have hpush : heap_push h p e = heapify_up
      { (if h.count = num_elts h then { h with count := 2 * h.count } else h) with
        pty_elts := (if h.count = num_elts h then { h with count := 2 * h.count }
          else h).pty_elts ++ [(p, e)]
        ht := ht_insert (if h.count = num_elts h then { h with count := 2 * h.count }
          else h).ht e (num_elts h) } (num_elts h) := rfl
  set h1 : heap_t P E :=
    { (if h.count = num_elts h then { h with count := 2 * h.count } else h) with
      pty_elts := (if h.count = num_elts h then { h with count := 2 * h.count }
        else h).pty_elts ++ [(p, e)]
      ht := ht_insert (if h.count = num_elts h then { h with count := 2 * h.count }
        else h).ht e (num_elts h) } with hh1
  have h1p : h1.pty_elts = h.pty_elts ++ [(p, e)] := by
    rw [hh1]
    simp only
    rw [h0p]
  have h1h : h1.ht = ht_insert h.ht e (num_elts h) := by
    rw [hh1]
    simp only
    rw [h0h]
  have hlen1 : h1.pty_elts.length = num_elts h + 1 := by
    rw [h1p]
    simp [num_elts]
  have hixlt : num_elts h < h1.pty_elts.length := by omega
  have hlast : pA h1.pty_elts (num_elts h) = (p, e) := by
    rw [h1p]
    exact pA_append_last (p, e)
  have hnd1 : eltsNodup h1.pty_elts := by
    rw [h1p]
    unfold eltsNodup
    rw [List.map_append]
    rw [List.nodup_append]
    refine ⟨hnd, by simp, ?_⟩
    intro a ha hb
    simp only [List.map_cons, List.map_nil, List.mem_singleton] at hb
    subst hb
    exact hnm ha
  have hmat1 : ∀ e', e' ≠ (pA h1.pty_elts (num_elts h)).2 →
      h1.ht e' = slotOf e' h1.pty_elts := by
    intro e' he'
    rw [hlast] at he'
    rw [h1h, h1p]
    unfold ht_insert
    rw [if_neg he']
    rw [hmat e']
    exact (slotOf_append_ne he' h.pty_elts).symm
  rcases heapify_up_spec hixlt hnd1 hmat1 with ⟨U1, U2, U3, U4, U5⟩
  have hui : up_inv h1.pty_elts (num_elts h) := by
    constructor
    · intro j hj hjl hji hpji
      have hjn : j < num_elts h := by omega
      have hpn : (j - 1) / 2 < num_elts h := by
        have := parent_lt hj
        omega
      rw [h1p, pA_append_left hpn, pA_append_left hjn]
      exact hord j hj hjn
    · intro c hc hcl hcp _
      exfalso
      have := (child_cases hc).mp hcp
      omega
  rcases up_loop_l_spec (num_elts h + 1) h1.pty_elts (num_elts h)
      hixlt (by omega) hui with ⟨L1, L2, L3, L4⟩
  have hordf : heap_ord (heapify_up h1 (num_elts h)).pty_elts := by
    rw [U1]
    by_cases hr : (up_loop_l (num_elts h + 1) h1.pty_elts (num_elts h)).2 = num_elts h
    · rcases L3 hr with ⟨hres, hai⟩
      rw [hres]
      apply ad_inv_ord hai
      intro c hc hcl hcp
      exfalso
      have := (child_cases hc).mp hcp
      omega
    · exact L4 hr
  rw [hpush]
  refine ⟨⟨hordf, U4, U5⟩, ?_, ?_⟩
  · intro x hx
    rw [U1] at hx
    rw [← h1p]
    exact ((up_loop_l_perm _ h1.pty_elts (num_elts h) hixlt).mem_iff).mp hx
  · show (heapify_up h1 (num_elts h)).pty_elts.length = num_elts h + 1
    rw [U2, hlen1]

theorem heap_update_inv {h : heap_t P E} {p : P} {e : E} {ix : Nat} (hinv : heap_inv h)
    (hfound : h.ht e = some ix) :
    heap_update h p e =
      some (heapify_down (heapify_up (update_write h p ix) ix) ix) ∧
    heap_inv (heapify_down (heapify_up (update_write h p ix) ix) ix) ∧
    num_elts (heapify_down (heapify_up (update_write h p ix) ix) ix) = num_elts h ∧
    List.Perm (heapify_down (heapify_up (update_write h p ix) ix) ix).pty_elts
      (h.pty_elts.set ix (p, e)) := by
  rcases hinv with ⟨hord, hnd, hmat⟩
  have hslot : slotOf e h.pty_elts = some ix := by
    rw [← hmat e]
    exact hfound
  rcases slotOf_some hslot with ⟨hixl, hixe⟩
  have hupd : heap_update h p e =
      some (heapify_down (heapify_up (update_write h p ix) ix) ix) := by
    unfold heap_update
    rw [hfound]
  have h1p : (update_write h p ix).pty_elts = h.pty_elts.set ix (p, e) := by
    unfold update_write
    simp only
    rw [hixe]
  have h1len : (update_write h p ix).pty_elts.length = h.pty_elts.length := by
    rw [h1p]
    simp
  have hsnd : (update_write h p ix).pty_elts.map Prod.snd = h.pty_elts.map Prod.snd := by
    unfold update_write
    simp only
    exact map_snd_set_same hixl p
  have hnd1 : eltsNodup (update_write h p ix).pty_elts := by
    unfold eltsNodup
    rw [hsnd]
    exact hnd
  have hmat1 : ∀ e', (update_write h p ix).ht e' =
      slotOf e' (update_write h p ix).pty_elts := by
    intro e'
    show h.ht e' = _
    rw [hmat e']
    exact slotOf_map_snd_congr hsnd.symm e'
  have hixl1 : ix < (update_write h p ix).pty_elts.length := by
    rw [h1len]
    exact hixl
  rcases heapify_up_spec hixl1 hnd1 (fun e' _ => hmat1 e') with ⟨U1, U2, U3, U4, U5⟩
  have hui : up_inv (update_write h p ix).pty_elts ix := by
    constructor
    · intro j hj hjl hji hpji
      rw [h1len] at hjl
      rw [h1p, pA_set_ne (by omega) _, pA_set_ne (by omega) _]
      exact hord j hj hjl
    · intro c hc hcl hcp hi0
      rw [h1len] at hcl
      have hcgt : ix < c := by
        have := (child_cases hc).mp hcp
        omega
      have hpar : (ix - 1) / 2 < ix := parent_lt hi0
      rw [h1p, pA_set_ne (by omega) _, pA_set_ne (by omega) _]
      have t1 : (pA h.pty_elts ((ix - 1) / 2)).1 ≤ (pA h.pty_elts ix).1 := hord ix hi0 hixl
      have t2 := hord c hc hcl
      rw [hcp] at t2
      exact le_trans t1 t2
  rcases up_loop_l_spec (ix + 1) (update_write h p ix).pty_elts ix hixl1 (by omega) hui
    with ⟨L1, L2, L3, L4⟩
  have had : ad_inv (heapify_up (update_write h p ix) ix).pty_elts ix := by
    rw [U1]
    by_cases hr : (up_loop_l (ix + 1) (update_write h p ix).pty_elts ix).2 = ix
    · rcases L3 hr with ⟨hres, hai⟩
      rw [hres]
      exact hai
    · apply heap_ord_ad_inv (L4 hr)
      rw [L2]
      exact hixl1
  have hixl2 : ix < (heapify_up (update_write h p ix) ix).pty_elts.length := by
    rw [U2]
    exact hixl1
  rcases heapify_down_spec hixl2 U4 (fun e' _ => U5 e') with ⟨D1, D2, D3, D4, D5⟩
  have hordf : heap_ord (heapify_down (heapify_up (update_write h p ix) ix) ix).pty_elts := by
    rw [D1]
    exact (down_loop_l_spec (num_elts (heapify_up (update_write h p ix) ix))
      (heapify_up (update_write h p ix) ix).pty_elts ix hixl2
      (by simp [num_elts]) had).1
  have hperm : List.Perm (heapify_down (heapify_up (update_write h p ix) ix) ix).pty_elts
      (h.pty_elts.set ix (p, e)) := by
    have p1 : List.Perm (heapify_down (heapify_up (update_write h p ix) ix) ix).pty_elts
        (heapify_up (update_write h p ix) ix).pty_elts := by
      rw [D1]
      exact down_loop_l_perm _ _ _ hixl2
    have p2 : List.Perm (heapify_up (update_write h p ix) ix).pty_elts
        (update_write h p ix).pty_elts := by
      rw [U1]
      exact up_loop_l_perm _ _ _ hixl1
    have p3 := p1.trans p2
    rw [h1p] at p3
    exact p3
  refine ⟨hupd, ⟨hordf, D4, D5⟩, ?_, hperm⟩
  show (heapify_down (heapify_up (update_write h p ix) ix) ix).pty_elts.length = num_elts h
  rw [D2, U2, h1len]
  rfl

theorem heap_pop_inv {h : heap_t P E} (hinv : heap_inv h) (p0 : P) (e0 : E) :
    (num_elts h = 0 → heap_pop h p0 e0 = (h, p0, e0)) ∧
    (0 < num_elts h →
      heap_inv (heap_pop h p0 e0).1 ∧
      (heap_pop h p0 e0).2.1 = (pA h.pty_elts 0).1 ∧
      (heap_pop h p0 e0).2.2 = (pA h.pty_elts 0).2 ∧
      num_elts (heap_pop h p0 e0).1 = num_elts h - 1 ∧
      (∀ x ∈ (heap_pop h p0 e0).1.pty_elts, x ∈ h.pty_elts)) := by
  rcases hinv with ⟨hord, hnd, hmat⟩
  constructor
  · intro h0
    unfold heap_pop
    rw [if_pos h0]
  · intro hpos
    have e2 : h.pty_elts.length = num_elts h := rfl
    have e1 : num_elts (swap h 0 (num_elts h - 1)) = num_elts h :=
      swap_len h 0 (num_elts h - 1)
    have h2len : num_elts { swap h 0 (num_elts h - 1) with
        ht := ht_remove (swap h 0 (num_elts h - 1)).ht (pA h.pty_elts 0).2
        pty_elts := (swap h 0 (num_elts h - 1)).pty_elts.take
          (num_elts (swap h 0 (num_elts h - 1)) - 1) } = num_elts h - 1 := by
      show ((swap h 0 (num_elts h - 1)).pty_elts.take
        (num_elts (swap h 0 (num_elts h - 1)) - 1)).length = num_elts h - 1
      rw [List.length_take, e1, swap_len, e2]
      omega
    by_cases hn2 : 2 ≤ num_elts h
    · -- at least two elements: real swap, then sift down from the root
      have h0l : 0 < h.pty_elts.length := by omega
      have hnl : num_elts h - 1 < h.pty_elts.length := by omega
      have hne0 : (0 : Nat) ≠ num_elts h - 1 := by omega
      rcases swap_eq hne0 h0l hnl with ⟨W1, W2, W3⟩
      have hpop : heap_pop h p0 e0 =
          (heapify_down { swap h 0 (num_elts h - 1) with
              ht := ht_remove (swap h 0 (num_elts h - 1)).ht (pA h.pty_elts 0).2
              pty_elts := (swap h 0 (num_elts h - 1)).pty_elts.take
                (num_elts (swap h 0 (num_elts h - 1)) - 1) } 0,
            (pA h.pty_elts 0).1, (pA h.pty_elts 0).2) := by
        simp only [heap_pop]
        rw [if_neg (by omega), if_pos (by rw [h2len]; omega)]
      set b : heap_t P E := { swap h 0 (num_elts h - 1) with
          ht := ht_remove (swap h 0 (num_elts h - 1)).ht (pA h.pty_elts 0).2
          pty_elts := (swap h 0 (num_elts h - 1)).pty_elts.take
            (num_elts (swap h 0 (num_elts h - 1)) - 1) } with hb
      have hbp : b.pty_elts =
          (swapL h.pty_elts 0 (num_elts h - 1)).take (num_elts h - 1) := by
        rw [hb]
        show (swap h 0 (num_elts h - 1)).pty_elts.take
          (num_elts (swap h 0 (num_elts h - 1)) - 1) = _
        rw [W1, e1]
      have hbh : b.ht =
          ht_remove (swap h 0 (num_elts h - 1)).ht (pA h.pty_elts 0).2 := by
        rw [hb]
      have hl1len : (swapL h.pty_elts 0 (num_elts h - 1)).length = num_elts h := by
        rw [length_swapL, e2]
      have hl1nd : eltsNodup (swapL h.pty_elts 0 (num_elts h - 1)) :=
        swapL_nodup h0l hnl hnd
      have hpa1 : pA (swapL h.pty_elts 0 (num_elts h - 1)) (num_elts h - 1) =
          pA h.pty_elts 0 := pA_swapL_right hnl
      have hpa0 : pA (swapL h.pty_elts 0 (num_elts h - 1)) 0 =
          pA h.pty_elts (num_elts h - 1) := pA_swapL_left hne0 h0l
      have hswmat : ∀ e', (swap h 0 (num_elts h - 1)).ht e' =
          slotOf e' (swapL h.pty_elts 0 (num_elts h - 1)) := by
        intro e'
        rw [W2]
        unfold ht_insert
        by_cases hea : e' = (pA h.pty_elts 0).2
        · rw [if_pos hea, hea]
          apply Eq.symm
          apply slotOf_of_nodup hl1nd (by rw [hl1len]; omega)
          rw [hpa1]
        · rw [if_neg hea]
          by_cases hez : e' = (pA h.pty_elts (num_elts h - 1)).2
          · rw [if_pos hez, hez]
            apply Eq.symm
            apply slotOf_of_nodup hl1nd (by rw [hl1len]; omega)
            rw [hpa0]
          · rw [if_neg hez, hmat e']
            exact (slotOf_swapL_other hnd h0l hnl hea hez).symm
      have hbmat : ∀ e', b.ht e' = slotOf e' b.pty_elts := by
        intro e'
        rw [hbh, hbp]
        unfold ht_remove
        rw [slotOf_take]
        by_cases hea : e' = (pA h.pty_elts 0).2
        · rw [if_pos hea]
          have hs : slotOf e' (swapL h.pty_elts 0 (num_elts h - 1)) =
              some (num_elts h - 1) := by
            rw [hea]
            apply slotOf_of_nodup hl1nd (by rw [hl1len]; omega)
            rw [hpa1]
          rw [hs]
          simp
        · rw [if_neg hea, hswmat e']
          cases hs : slotOf e' (swapL h.pty_elts 0 (num_elts h - 1)) with
          | none => rfl
          | some s =>
            rcases slotOf_some hs with ⟨hsl, hse⟩
            rw [hl1len] at hsl
            have hsne : s ≠ num_elts h - 1 := by
              intro hc
              apply hea
              rw [← hse, hc, hpa1]
            have hslt : s < num_elts h - 1 := by omega
            simp [hslt]
      have hbnd : eltsNodup b.pty_elts := by
        rw [hbp]
        unfold eltsNodup
        rw [List.map_take]
        exact List.Nodup.sublist (List.take_sublist _ _) hl1nd
      have hblen : b.pty_elts.length = num_elts h - 1 := h2len
      have hbl0 : 0 < b.pty_elts.length := by omega
      have hbad : ad_inv b.pty_elts 0 := by
        constructor
        · intro j hj hjl hpj
          rw [hblen] at hjl
          have hpj1 : 0 < (j - 1) / 2 := by omega
          have hpjlt : (j - 1) / 2 < j := parent_lt hj
          rw [hbp, pA_take (by omega), pA_take (by omega),
            pA_swapL_other (by omega) (by omega),
            pA_swapL_other (by omega) (by omega)]
          exact hord j hj (by omega)
        · intro c hc hcl hcp hc0
          omega
      rcases heapify_down_spec hbl0 hbnd (fun e' _ => hbmat e') with ⟨D1, D2, D3, D4, D5⟩
      have hordf : heap_ord (heapify_down b 0).pty_elts := by
        rw [D1]
        exact (down_loop_l_spec (num_elts b) b.pty_elts 0 hbl0
          (by simp [num_elts]) hbad).1
      rw [hpop]
      refine ⟨⟨hordf, D4, D5⟩, rfl, rfl, ?_, ?_⟩
      · show (heapify_down b 0).pty_elts.length = num_elts h - 1
        rw [D2, hblen]
      · intro x hx
        have hx1 : x ∈ b.pty_elts := by
          rw [D1] at hx
          exact ((down_loop_l_perm (num_elts b) b.pty_elts 0 hbl0).mem_iff).mp hx
        rw [hbp] at hx1
        have hx2 : x ∈ swapL h.pty_elts 0 (num_elts h - 1) :=
          (List.take_sublist _ _).mem hx1
        exact (mem_swapL h0l hnl).mp hx2
    · -- exactly one element: swap is the identity and the heap empties
      have hn1 : num_elts h = 1 := by omega
      obtain ⟨x, hx⟩ := List.length_eq_one.mp (show h.pty_elts.length = 1 from hn1)
      have ha : pA h.pty_elts 0 = x := by
        rw [hx]
        rfl
      have hsw : swap h 0 (num_elts h - 1) = h := by
        rw [show num_elts h - 1 = 0 from by omega]
        exact swap_self
      have hpop : heap_pop h p0 e0 =
          ({ swap h 0 (num_elts h - 1) with
              ht := ht_remove (swap h 0 (num_elts h - 1)).ht (pA h.pty_elts 0).2
              pty_elts := (swap h 0 (num_elts h - 1)).pty_elts.take
                (num_elts (swap h 0 (num_elts h - 1)) - 1) },
            (pA h.pty_elts 0).1, (pA h.pty_elts 0).2) := by
        simp only [heap_pop]
        rw [if_neg (by omega), if_neg (by rw [h2len]; omega)]
      set b : heap_t P E := { swap h 0 (num_elts h - 1) with
          ht := ht_remove (swap h 0 (num_elts h - 1)).ht (pA h.pty_elts 0).2
          pty_elts := (swap h 0 (num_elts h - 1)).pty_elts.take
            (num_elts (swap h 0 (num_elts h - 1)) - 1) } with hb
      have hbp : b.pty_elts = [] := by
        rw [hb]
        show (swap h 0 (num_elts h - 1)).pty_elts.take
          (num_elts (swap h 0 (num_elts h - 1)) - 1) = _
        rw [hsw, hn1]
        simp
      have hbh : b.ht = ht_remove h.ht (pA h.pty_elts 0).2 := by
        rw [hb]
        show ht_remove (swap h 0 (num_elts h - 1)).ht (pA h.pty_elts 0).2 = _
        rw [hsw]
      rw [hpop]
      refine ⟨⟨?_, ?_, ?_⟩, rfl, rfl, ?_, ?_⟩
      · intro j hj hjl
        rw [hbp] at hjl
        simp at hjl
      · rw [hbp]
        simp [eltsNodup]
      · intro e'
        rw [hbh, hbp]
        unfold ht_remove
        by_cases hea : e' = (pA h.pty_elts 0).2
        · rw [if_pos hea]
          rfl
        · rw [if_neg hea, hmat e', hx]
          rw [ha] at hea
          unfold slotOf
          rw [if_neg (fun hc => hea hc.symm)]
          rfl
      · show b.pty_elts.length = num_elts h - 1
        rw [hbp, hn1]
        rfl
      · intro y hy
        rw [hbp] at hy
        simp at hy

theorem reachable_inv {h : heap_t P E} (hr : reachable h) : heap_inv h := by
  induction hr with
  | init ps es mn => exact heap_init_inv ps es mn
  | push p e hr habs ih => exact (heap_push_inv ih habs).1
  | update p e hr hupd ih =>
    rename_i h0 h1
    cases hht : h0.ht e with
    | none =>
      exfalso
      have hnone : heap_update h0 p e = none := by
        unfold heap_update
        rw [hht]
      rw [hnone] at hupd
      exact Option.noConfusion hupd
    | some ix =>
      rcases heap_update_inv ih hht with ⟨hu1, hu2, _, _⟩
      rw [hu1] at hupd
      rw [← Option.some.inj hupd]
      exact hu2
  | pop p0 e0 hr ih =>
    rename_i h0
    by_cases h0e : num_elts h0 = 0
    · rw [(heap_pop_inv ih p0 e0).1 h0e]
      exact ih
    · exact ((heap_pop_inv ih p0 e0).2 (by omega)).1

theorem heap_ord_root_min {l : List (P × E)} (ho : heap_ord l) :
    ∀ i, i < l.length → (pA l 0).1 ≤ (pA l i).1 := by
  intro i
  induction i using Nat.strong_induction_on with
  | _ i ih =>
    intro hi
    rcases Nat.eq_zero_or_pos i with h0 | hp
    · subst h0
      exact le_refl _
    · have hpar := parent_lt hp
      exact le_trans (ih ((i - 1) / 2) hpar (by omega)) (ho i hp hi)

theorem popAll_sorted : ∀ (k : Nat) (h : heap_t P E), heap_inv h →
    List.Chain' (· ≤ ·) ((popAll k h).map Prod.fst) := by
  intro k
  induction k with
  | zero =>
    intro h _
    simp [popAll]
  | succ k ih =>
    intro h hinv
    by_cases h0 : num_elts h = 0
    · simp [popAll, h0]
    · have hpos : 0 < num_elts h := by omega
      rcases (heap_pop_inv hinv default default).2 hpos with ⟨hinv1, hp1, hp2, hlen, hmem⟩
      have heq : popAll (k + 1) h =
          ((heap_pop h default default).2.1, (heap_pop h default default).2.2) ::
            popAll k (heap_pop h default default).1 := by
        simp [popAll, h0]
      rw [heq, List.map_cons, List.chain'_cons']
      refine ⟨?_, ih _ hinv1⟩
      intro y hy
      cases k with
      | zero => simp [popAll] at hy
      | succ k2 =>
        by_cases h0b : num_elts (heap_pop h default default).1 = 0
        · simp [popAll, h0b] at hy
        · have hposb : 0 < num_elts (heap_pop h default default).1 := by omega
          have heqb : popAll (k2 + 1) (heap_pop h default default).1 =
              ((heap_pop (heap_pop h default default).1 default default).2.1,
                (heap_pop (heap_pop h default default).1 default default).2.2) ::
                popAll k2 (heap_pop (heap_pop h default default).1 default default).1 := by
            simp [popAll, h0b]
          rw [heqb] at hy
          simp only [List.map_cons, List.head?_cons, Option.mem_def, Option.some.injEq] at hy
          rcases (heap_pop_inv hinv1 default default).2 hposb with ⟨_, hq1, _, _, _⟩
          rw [← hy, hq1, hp1]
          have hrootmem : pA (heap_pop h default default).1.pty_elts 0 ∈ h.pty_elts :=
            hmem _ (pA_mem hposb)
          rcases List.mem_iff_getElem.mp hrootmem with ⟨m, hm, hgm⟩
          have := heap_ord_root_min hinv.1 m hm
          rw [pA_eq_getElem hm, hgm] at this
          exact this

theorem push_list_inv : ∀ (xs : List (P × E)) (h : heap_t P E), heap_inv h →
    (∀ y ∈ xs, y.2 ∉ h.pty_elts.map Prod.snd) → (xs.map Prod.snd).Nodup →
    heap_inv (push_list xs h) := by
  intro xs
  induction xs with
  | nil =>
    intro h hinv _ _
    exact hinv
  | cons x t ih =>
    intro h hinv hdisj hnd
    have habs : h.ht x.2 = none := by
      rw [hinv.2.2 x.2, slotOf_none_iff]
      exact hdisj x (by simp)
    rcases heap_push_inv hinv habs with ⟨hinv1, hmem1, _⟩
    have hstep : push_list (x :: t) h = push_list t (heap_push h x.1 x.2) := rfl
    rw [hstep]
    apply ih _ hinv1
    · intro y hy hymem
      rcases List.mem_map.mp hymem with ⟨pr, hpr, hpr2⟩
      rcases List.mem_append.mp (hmem1 pr hpr) with hin | hin
      · exact hdisj y (by simp [hy]) (hpr2 ▸ List.mem_map_of_mem Prod.snd hin)
      · simp only [List.mem_singleton] at hin
        have hyx : y.2 = x.2 := by
          rw [← hpr2, hin]
        have hx2 : x.2 ∉ t.map Prod.snd := by
          have hnd2 := hnd
          rw [List.map_cons, List.nodup_cons] at hnd2
          exact hnd2.1
        exact hx2 (hyx ▸ List.mem_map_of_mem Prod.snd hy)
    · rw [List.map_cons, List.nodup_cons] at hnd
      exact hnd.2

theorem roundup_spec {v A : Nat} (hA : 0 < A) (hv : 0 < v) :
    v ≤ v + (if 0 < v % A then A - v % A else 0) ∧
    (v + (if 0 < v % A then A - v % A else 0)) % A = 0 ∧
    ∀ m, v ≤ m → m % A = 0 → v + (if 0 < v % A then A - v % A else 0) ≤ m := by
  by_cases hr : 0 < v % A
  · rw [if_pos hr]
    have hrem : v % A < A := Nat.mod_lt v hA
    have hdiv : A * (v / A) + v % A = v := Nat.div_add_mod v A
    have hsum : v + (A - v % A) = A * (v / A + 1) := by
      rw [Nat.mul_succ]
      omega
    refine ⟨by omega, ?_, ?_⟩
    · rw [hsum]
      exact Nat.mul_mod_right A (v / A + 1)
    · intro m hm hm0
      have hdm : A * (m / A) = m := by
        have := Nat.div_add_mod m A
        omega
      have hlt : A * (v / A) < A * (m / A) := by omega
      have hqlt : v / A < m / A := Nat.lt_of_mul_lt_mul_left hlt
      have : A * (v / A + 1) ≤ A * (m / A) := Nat.mul_le_mul_left A (by omega)
      omega
  · rw [if_neg hr]
    have hva : v % A = 0 := by omega
    refine ⟨by omega, by rw [Nat.add_zero]; exact hva, ?_⟩
    intro m hm _
    omega

theorem offset_spec {s A : Nat} (hA : 0 < A) (hs : 0 < s) :
    s ≤ (if s ≤ A then A else s + (if 0 < s % A then A - s % A else 0)) ∧
    (if s ≤ A then A else s + (if 0 < s % A then A - s % A else 0)) % A = 0 ∧
    ∀ m, s ≤ m → m % A = 0 →
      (if s ≤ A then A else s + (if 0 < s % A then A - s % A else 0)) ≤ m := by
  by_cases hsA : s ≤ A
  · rw [if_pos hsA]
    refine ⟨hsA, Nat.mod_self A, ?_⟩
    intro m hm hm0
    have hdm : A * (m / A) = m := by
      have := Nat.div_add_mod m A
      omega
    have hq1 : 1 ≤ m / A := by
      by_contra hc
      have hq0 : m / A = 0 := Nat.lt_one_iff.mp (Nat.lt_of_not_le hc)
      rw [hq0, Nat.mul_zero] at hdm
      omega
    calc A = A * 1 := (Nat.mul_one A).symm
      _ ≤ A * (m / A) := Nat.mul_le_mul_left A hq1
      _ = m := hdm
  · rw [if_neg hsA]
    exact roundup_spec hA hs

theorem heap_search_eq_some {h : heap_t P E} {e : E} {s : Nat} (hs : h.ht e = some s) :
    heap_search h e = (h, some (pA h.pty_elts s).1) := by
  unfold heap_search
  rw [hs]

theorem heap_search_eq_none {h : heap_t P E} {e : E} (hs : h.ht e = none) :
    heap_search h e = (h, none) := by
  unfold heap_search
  rw [hs]

/-- C1: every heap reachable from an initialized empty heap by pushes of
fresh elements (pairwise-distinct byte patterns), updates of present
elements, and pops satisfies the min-heap order after each operation: for
every non-root slot `i` with `0 < i < num_elts`, the comparator applied to
the priority at the parent slot `(i - 1) / 2` and the priority at slot `i`
is non-positive. -/
theorem heap_order_after_ops {h : heap_t P E} (hr : reachable h) :
    ∀ i, 0 < i → i < num_elts h →
      cmp_pty (pA h.pty_elts ((i - 1) / 2)).1 (pA h.pty_elts i).1 ≤ 0 := by
  intro i hi hil
  exact cmp_pty_nonpos.mpr ((reachable_inv hr).1 i hi hil)

theorem heap_order_after_ops_witness :
    cmp_pty (pA heap_b.pty_elts ((1 - 1) / 2)).1 (pA heap_b.pty_elts 1).1 ≤ 0 := by
  exact heap_order_after_ops
    (reachable.push 7 1 (reachable.push 5 0 (reachable.init 8 8 4) (by decide)) (by decide))
    1 (by decide) (by decide)

/-- C2: for every heap reachable by pushes of fresh elements, updates of
present elements, and pops, the hash table is a bijection onto the occupied
slots: the element stored at each slot `i < num_elts` is mapped to `i`, and
every key present in the table is the element of exactly one live slot. -/
theorem index_bijection_after_ops {h : heap_t P E} (hr : reachable h) :
    (∀ i, i < num_elts h → h.ht (pA h.pty_elts i).2 = some i) ∧
    (∀ e j, h.ht e = some j → j < num_elts h ∧ (pA h.pty_elts j).2 = e ∧
      ∀ j', j' < num_elts h → (pA h.pty_elts j').2 = e → j' = j) := by
  rcases reachable_inv hr with ⟨hord, hnd, hmat⟩
  constructor
  · intro i hi
    rw [hmat]
    exact slotOf_of_nodup hnd hi rfl
  · intro e j hj
    rw [hmat] at hj
    rcases slotOf_some hj with ⟨hjl, hje⟩
    exact ⟨hjl, hje, fun j' hj' hje' => eltsNodup_inj hnd hj' hjl (by rw [hje', hje])⟩

theorem index_bijection_after_ops_witness :
    heap_b.ht (pA heap_b.pty_elts 1).2 = some 1 := by
  exact (index_bijection_after_ops
    (reachable.push 7 1 (reachable.push 5 0 (reachable.init 8 8 4) (by decide)) (by decide))).1
    1 (by decide)

/-- C3: for every sequence of pushes with pairwise-distinct element byte
patterns followed by repeated pops, the sequence of priorities written out
by the pops is non-decreasing under `cmp_pty`; in particular, pushing
priorities 5, 3, 8, 1 for the distinct elements 0 (A), 1 (B), 2 (C), 3 (D)
and popping four times yields D with 1, then B with 3, then A with 5, then
C with 8. -/
theorem pop_min_correct :
    (∀ (Q F : Type) [LinearOrder Q] [DecidableEq F] [Inhabited Q] [Inhabited F],
      ∀ (xs : List (Q × F)) (ps es mn k : Nat),
        (xs.map Prod.snd).Nodup →
        List.Chain' (fun a b => cmp_pty a b ≤ 0)
          ((popAll k (push_list xs (heap_init ps es mn))).map Prod.fst)) ∧
    popAll 4 heap_demo = [(1, 3), (3, 1), (5, 0), (8, 2)] := by
  constructor
  · intro Q F _ _ _ _ xs ps es mn k hnd
    have hch := popAll_sorted k (push_list xs (heap_init ps es mn)) ?hinv
    case hinv =>
      apply push_list_inv xs (heap_init ps es mn) (heap_init_inv ps es mn) ?_ hnd
      intro y hy hmem
      simp [heap_init] at hmem
    exact List.Chain'.imp (fun a b hab => cmp_pty_nonpos.mpr hab) hch
  · decide

/-- C4 (counterexample to the claim as stated): calling heap_update with the
absent element byte pattern 99 on a one-element heap yields no defined
resulting heap state at all — the hash search returns NULL and the code
dereferences it — rather than a reported failure that leaves the heap
unchanged. -/
theorem update_absent_counterexample :
    heap_update heap_a 3 99 = none := by
  have habs : heap_a.ht 99 = none := by decide
  unfold heap_update
  rw [habs]

/-- C4 (amended): `heap_update` requires the element to be present.  With an
absent element the hash-table search returns NULL and line 203 dereferences
it without a check, so the call has no defined resulting heap state (`none`
in the embedding); callers must test membership with `heap_search` first. -/
theorem update_absent_undefined {h : heap_t P E} (p : P) (e : E)
    (habs : h.ht e = none) : heap_update h p e = none := by
  unfold heap_update
  rw [habs]

theorem update_absent_undefined_witness :
    heap_update (heap_init 8 8 4 : heap_t Nat Nat) 3 99 = none :=
  update_absent_undefined 3 99 rfl

/-- C5: popping from an empty heap is a no-op: the returned state is the
unchanged heap (all fields, including `count`, the pair store and the hash
table) and both caller output buffers keep their previous contents. -/
theorem pop_empty_noop {h : heap_t P E} (pty : P) (elt : E) (h0 : num_elts h = 0) :
    heap_pop h pty elt = (h, pty, elt) := by
  unfold heap_pop
  rw [if_pos h0]

theorem pop_empty_noop_witness :
    heap_pop (heap_init 8 8 4 : heap_t Nat Nat) 2 5 = (heap_init 8 8 4, 2, 5) :=
  pop_empty_noop 2 5 rfl

/-- C6: on a heap satisfying the heap and index invariants and containing
element `e` (the hash search finds slot `ix`), `heap_update p e` succeeds,
an immediately following `heap_search e` returns the new priority `p`, and
the heap order holds afterwards. -/
theorem update_search_correct {h : heap_t P E} {p : P} {e : E} {ix : Nat}
    (hinv : heap_inv h) (hfound : h.ht e = some ix) :
    ∃ h', heap_update h p e = some h' ∧ (heap_search h' e).2 = some p ∧
      ∀ j, 0 < j → j < num_elts h' →
        cmp_pty (pA h'.pty_elts ((j - 1) / 2)).1 (pA h'.pty_elts j).1 ≤ 0 := by
  rcases heap_update_inv hinv hfound with ⟨H1, H2, H3, H4⟩
  refine ⟨_, H1, ?_, ?_⟩
  · have hslot : slotOf e h.pty_elts = some ix := by
      rw [← hinv.2.2 e]
      exact hfound
    rcases slotOf_some hslot with ⟨hixl, _⟩
    have hixl' : ix < (h.pty_elts.set ix (p, e)).length := by simpa using hixl
    have hset : pA (h.pty_elts.set ix (p, e)) ix = (p, e) := pA_set_self hixl _
    have hpe_mem : (p, e) ∈ h.pty_elts.set ix (p, e) := by
      have hmm := pA_mem hixl'
      rw [hset] at hmm
      exact hmm
    have hmem : (p, e) ∈
        (heapify_down (heapify_up (update_write h p ix) ix) ix).pty_elts :=
      H4.mem_iff.mpr hpe_mem
    rcases List.mem_iff_getElem.mp hmem with ⟨s, hs, hgs⟩
    have hpas : pA (heapify_down (heapify_up (update_write h p ix) ix) ix).pty_elts s
        = (p, e) := by
      rw [pA_eq_getElem hs, hgs]
    have hslot2 : (heapify_down (heapify_up (update_write h p ix) ix) ix).ht e
        = some s := by
      rw [H2.2.2 e]
      apply slotOf_of_nodup H2.2.1 hs
      rw [hpas]
    rw [heap_search_eq_some hslot2, hpas]
  · intro j hj hjl
    exact cmp_pty_nonpos.mpr (H2.1 j hj hjl)

theorem update_search_correct_witness :
    ∃ h', heap_update heap_b 1 1 = some h' ∧ (heap_search h' 1).2 = some 1 ∧
      ∀ j, 0 < j → j < num_elts h' →
        cmp_pty (pA h'.pty_elts ((j - 1) / 2)).1 (pA h'.pty_elts j).1 ≤ 0 := by
  exact @update_search_correct Nat Nat _ _ _ _ heap_b 1 1 1
    (reachable_inv
      (reachable.push 7 1 (reachable.push 5 0 (reachable.init 8 8 4) (by decide)) (by decide)))
    (by decide)

/-- C7: for positive priority and element sizes (heap_init, where the
alignments are the sizes themselves) and positive alignments (heap_align),
the computed `elt_offset` is the smallest offset at least `pty_size` that is
a multiple of the element alignment, and the computed `pair_size` is the
smallest value at least `elt_offset + elt_size` that is a multiple of the
priority alignment. -/
theorem layout_minimal {ps es pa ea : Nat} (hps : 0 < ps) (hes : 0 < es)
    (hpa : 0 < pa) (hea : 0 < ea) :
    (ps ≤ (heap_init_layout ps es).1 ∧ (heap_init_layout ps es).1 % es = 0 ∧
      (∀ m, ps ≤ m → m % es = 0 → (heap_init_layout ps es).1 ≤ m)) ∧
    ((heap_init_layout ps es).1 + es ≤ (heap_init_layout ps es).2 ∧
      (heap_init_layout ps es).2 % ps = 0 ∧
      (∀ m, (heap_init_layout ps es).1 + es ≤ m → m % ps = 0 →
        (heap_init_layout ps es).2 ≤ m)) ∧
    (ps ≤ (heap_align_layout ps es pa ea).1 ∧
      (heap_align_layout ps es pa ea).1 % ea = 0 ∧
      (∀ m, ps ≤ m → m % ea = 0 → (heap_align_layout ps es pa ea).1 ≤ m)) ∧
    ((heap_align_layout ps es pa ea).1 + es ≤ (heap_align_layout ps es pa ea).2 ∧
      (heap_align_layout ps es pa ea).2 % pa = 0 ∧
      (∀ m, (heap_align_layout ps es pa ea).1 + es ≤ m → m % pa = 0 →
        (heap_align_layout ps es pa ea).2 ≤ m)) := by
  have hinit1 : (heap_init_layout ps es).1 =
      if ps ≤ es then es else ps + (if 0 < ps % es then es - ps % es else 0) := rfl
  have hinit2 : (heap_init_layout ps es).2 =
      (heap_init_layout ps es).1 + es +
        (if 0 < ((heap_init_layout ps es).1 + es) % ps then
          ps - ((heap_init_layout ps es).1 + es) % ps else 0) := rfl
  have halign1 : (heap_align_layout ps es pa ea).1 =
      if ps ≤ ea then ea else ps + (if 0 < ps % ea then ea - ps % ea else 0) := rfl
  have halign2 : (heap_align_layout ps es pa ea).2 =
      (heap_align_layout ps es pa ea).1 + es +
        (if 0 < ((heap_align_layout ps es pa ea).1 + es) % pa then
          pa - ((heap_align_layout ps es pa ea).1 + es) % pa else 0) := rfl
  rcases offset_spec hes hps with ⟨A1, A2, A3⟩
  rw [← hinit1] at A1 A2 A3
  rcases roundup_spec hps (show 0 < (heap_init_layout ps es).1 + es by omega)
    with ⟨B1, B2, B3⟩
  rw [← hinit2] at B1 B2 B3
  rcases offset_spec hea hps with ⟨A1', A2', A3'⟩
  rw [← halign1] at A1' A2' A3'
  rcases roundup_spec hpa (show 0 < (heap_align_layout ps es pa ea).1 + es by omega)
    with ⟨B1', B2', B3'⟩
  rw [← halign2] at B1' B2' B3'
  exact ⟨⟨A1, A2, A3⟩, ⟨B1, B2, B3⟩, ⟨A1', A2', A3'⟩, ⟨B1', B2', B3'⟩⟩

theorem layout_minimal_witness :
    (8 : Nat) ≤ (heap_init_layout 8 4).1 ∧ (heap_init_layout 8 4).1 % 4 = 0 ∧
      (heap_init_layout 8 4).1 ≤ 8 :=
  ⟨(@layout_minimal 8 4 8 4 (by decide) (by decide) (by decide) (by decide)).1.1,
   (@layout_minimal 8 4 8 4 (by decide) (by decide) (by decide) (by decide)).1.2.1,
   (@layout_minimal 8 4 8 4 (by decide) (by decide) (by decide)
     (by decide)).1.2.2 8 (le_refl 8) (by decide)⟩

/-- C8: for every live heap size `1 ≤ num_elts ≤ 2^w - 2` and start slot
`ix < num_elts`, the guard arithmetic of `heapify_down` evaluated in exact
unsigned word arithmetic never wraps: `ix + 2`, `num_elts - 1 - ix` and
`ix + 1` equal their mathematical values, the two-children loop guard holds
exactly when the right child index `2 ix + 2` is a live slot, and the
one-remaining-child test holds exactly when the left child `2 ix + 1` is the
last live slot — so child slots are compared only when they are strictly
below `num_elts`. -/
theorem down_guard_size_t {w n ix : Nat} (hn1 : 1 ≤ n) (hn2 : n ≤ 2 ^ w - 2)
    (hix : ix < n) :
    sz_add w ix 2 = ix + 2 ∧
    sz_sub w (sz_sub w n 1) ix = n - 1 - ix ∧
    (sz_add w ix 2 ≤ sz_sub w (sz_sub w n 1) ix ↔ down_guard n ix) ∧
    (down_guard n ix ↔ 2 * ix + 2 < n) ∧
    (down_guard n ix → 2 * ix + 1 < n ∧ 2 * ix + 2 < n) ∧
    sz_add w ix 1 = ix + 1 ∧
    (sz_add w ix 1 = sz_sub w (sz_sub w n 1) ix ↔ down_one_child n ix) ∧
    (down_one_child n ix ↔ 2 * ix + 1 = n - 1) ∧
    (down_one_child n ix → 2 * ix + 1 < n) := by
  have hW1 : 0 < 2 ^ w := Nat.two_pow_pos w
  have hW : 3 ≤ 2 ^ w := by omega
  have hadd2 : sz_add w ix 2 = ix + 2 := by
    unfold sz_add
    exact Nat.mod_eq_of_lt (by omega)
  have hadd1 : sz_add w ix 1 = ix + 1 := by
    unfold sz_add
    exact Nat.mod_eq_of_lt (by omega)
  have hsub1 : sz_sub w n 1 = n - 1 := by
    unfold sz_sub
    rw [Nat.mod_eq_sub_mod (by omega)]
    have he : n + (2 ^ w - 1) - 2 ^ w = n - 1 := by omega
    rw [he]
    exact Nat.mod_eq_of_lt (by omega)
  have hsub2 : sz_sub w (n - 1) ix = n - 1 - ix := by
    unfold sz_sub
    rw [Nat.mod_eq_sub_mod (by omega)]
    have he : n - 1 + (2 ^ w - ix) - 2 ^ w = n - 1 - ix := by omega
    rw [he]
    exact Nat.mod_eq_of_lt (by omega)
  refine ⟨hadd2, by rw [hsub1, hsub2], ?_, ?_, ?_, hadd1, ?_, ?_, ?_⟩
  · rw [hadd2, hsub1, hsub2]
  · show ix + 2 ≤ n - 1 - ix ↔ 2 * ix + 2 < n
    omega
  · intro hg
    have hg' : ix + 2 ≤ n - 1 - ix := hg
    omega
  · rw [hadd1, hsub1, hsub2]
  · show ix + 1 = n - 1 - ix ↔ 2 * ix + 1 = n - 1
    omega
  · intro h1
    have h1' : ix + 1 = n - 1 - ix := h1
    omega

theorem down_guard_size_t_witness :
    sz_add 64 1 2 = 1 + 2 ∧ (down_guard 5 1 ↔ 2 * 1 + 2 < 5) :=
  ⟨(@down_guard_size_t 64 5 1 (by decide) (by decide) (by decide)).1,
   (@down_guard_size_t 64 5 1 (by decide) (by decide) (by decide)).2.2.2.1⟩

/-- C9 (counterexample to the claim as stated): updating the single element
of a one-element heap moves nothing: neither the sift-up pass nor the
sift-down pass of `heap_update` changes the pair array, so it is not the
case that exactly one of the two passes moves the updated entry while the
other performs no move. -/
theorem update_single_sift_counterexample :
    ¬ (((heapify_up (update_write heap_a 7 0) 0).pty_elts ≠
          (update_write heap_a 7 0).pty_elts ∧
        (heapify_down (heapify_up (update_write heap_a 7 0) 0) 0).pty_elts =
          (heapify_up (update_write heap_a 7 0) 0).pty_elts) ∨
       ((heapify_up (update_write heap_a 7 0) 0).pty_elts =
          (update_write heap_a 7 0).pty_elts ∧
        (heapify_down (heapify_up (update_write heap_a 7 0) 0) 0).pty_elts ≠
          (heapify_up (update_write heap_a 7 0) 0).pty_elts)) := by
  decide

/-- C9 (amended): for `heap_update` on a present element of a heap
satisfying the invariants, at most one of the two sift passes moves entries:
if the sift-up pass changed the pair array, the subsequent sift-down pass
from the same slot leaves it unchanged; when the new priority keeps the
entry in heap position, neither pass moves anything. -/
theorem update_sifts_at_most_one {h : heap_t P E} {p : P} {e : E} {ix : Nat}
    (hinv : heap_inv h) (hfound : h.ht e = some ix)
    (hup : (heapify_up (update_write h p ix) ix).pty_elts ≠
      (update_write h p ix).pty_elts) :
    (heapify_down (heapify_up (update_write h p ix) ix) ix).pty_elts =
      (heapify_up (update_write h p ix) ix).pty_elts := by
  rcases hinv with ⟨hord, hnd, hmat⟩
  have hslot : slotOf e h.pty_elts = some ix := by
    rw [← hmat e]
    exact hfound
  rcases slotOf_some hslot with ⟨hixl, hixe⟩
  have h1p : (update_write h p ix).pty_elts = h.pty_elts.set ix (p, e) := by
    unfold update_write
    simp only
    rw [hixe]
  have h1len : (update_write h p ix).pty_elts.length = h.pty_elts.length := by
    rw [h1p]
    simp
  have hsnd : (update_write h p ix).pty_elts.map Prod.snd = h.pty_elts.map Prod.snd := by
    unfold update_write
    simp only
    exact map_snd_set_same hixl p
  have hnd1 : eltsNodup (update_write h p ix).pty_elts := by
    unfold eltsNodup
    rw [hsnd]
    exact hnd
  have hmat1 : ∀ e', (update_write h p ix).ht e' =
      slotOf e' (update_write h p ix).pty_elts := by
    intro e'
    show h.ht e' = _
    rw [hmat e']
    exact slotOf_map_snd_congr hsnd.symm e'
  have hixl1 : ix < (update_write h p ix).pty_elts.length := by
    rw [h1len]
    exact hixl
  rcases heapify_up_spec hixl1 hnd1 (fun e' _ => hmat1 e') with ⟨U1, U2, U3, U4, U5⟩
  have hui : up_inv (update_write h p ix).pty_elts ix := by
    constructor
    · intro j hj hjl hji hpji
      rw [h1len] at hjl
      rw [h1p, pA_set_ne (by omega) _, pA_set_ne (by omega) _]
      exact hord j hj hjl
    · intro c hc hcl hcp hi0
      rw [h1len] at hcl
      have hcgt : ix < c := by
        have := (child_cases hc).mp hcp
        omega
      have hpar : (ix - 1) / 2 < ix := parent_lt hi0
      rw [h1p, pA_set_ne (by omega) _, pA_set_ne (by omega) _]
      have t1 : (pA h.pty_elts ((ix - 1) / 2)).1 ≤ (pA h.pty_elts ix).1 := hord ix hi0 hixl
      have t2 := hord c hc hcl
      rw [hcp] at t2
      exact le_trans t1 t2
  rcases up_loop_l_spec (ix + 1) (update_write h p ix).pty_elts ix hixl1 (by omega) hui
    with ⟨L1, L2, L3, L4⟩
  have hrne : (up_loop_l (ix + 1) (update_write h p ix).pty_elts ix).2 ≠ ix := by
    intro hre
    apply hup
    rw [U1, (L3 hre).1]
  have hordup : heap_ord (heapify_up (update_write h p ix) ix).pty_elts := by
    rw [U1]
    exact L4 hrne
  have hixl2 : ix < (heapify_up (update_write h p ix) ix).pty_elts.length := by
    rw [U2]
    exact hixl1
  rcases heapify_down_spec hixl2 U4 (fun e' _ => U5 e') with ⟨D1, _, _, _, _⟩
  rw [D1, down_loop_l_of_ord _ hordup hixl2]

theorem update_sifts_at_most_one_witness :
    (heapify_down (heapify_up (update_write heap_b 1 1) 1) 1).pty_elts =
      (heapify_up (update_write heap_b 1 1) 1).pty_elts := by
  exact @update_sifts_at_most_one Nat Nat _ _ _ _ heap_b 1 1 1
    (reachable_inv
      (reachable.push 7 1 (reachable.push 5 0 (reachable.init 8 8 4) (by decide)) (by decide)))
    (by decide) (by decide)

/-- C10: `heap_search` never modifies the heap: the state component of its
result — all layout fields, `count`, the pair store and the hash table — is
the argument heap itself, whether the element is present or absent. -/
theorem search_frame (h : heap_t P E) (e : E) : (heap_search h e).1 = h := by
  cases hht : h.ht e with
  | some ix => rw [heap_search_eq_some hht]
  | none => rw [heap_search_eq_none hht]

end DsAlgsC
